import Mathlib

/-
Verification of the SigFig module (significant-figure arithmetic).

The Python source is shallowly embedded: magnitudes are exact rationals
wrapped in a `PyFloat` type carrying the IEEE specials `inf` / `nan`
(the embedding computes with exact arithmetic; binary64 representation
effects are outside the model), Python strings are lists of characters,
and every operation that can raise returns `Except Err`.  The decimal
formatting primitives used by the source (`f-string` fixed, `%.8e`
scientific and `%#.g` general formats, `round`, `float()` and `int()`
literal parsing, `str()` of ints) are modelled with round-half-to-even
rounding, which is CPython's decimal formatting rounding mode.
-/

deriving instance DecidableEq for Except

set_option maxRecDepth 10000

namespace SigFigModel

/-- Python exception kinds that the embedded code can raise. -/
inductive Err where
  | valueError
  | typeError
  | indexError
  | nameError
  | recursionError
  | zeroDivisionError
  | attributeError
deriving DecidableEq

/-- A Python string, embedded as its list of characters. -/
abbrev PyStr := List Char

/-- Convenience injection of a Lean string literal into the embedding. -/
def pystr (s : String) : PyStr := s.data

/-- Lowercase a single character (Python `str.lower` on ASCII). -/
def charLower (c : Char) : Char :=
  if 'A' ≤ c ∧ c ≤ 'Z' then Char.ofNat (c.toNat + 32) else c

/-- Python `str.lower`. -/
def toLowerL (s : PyStr) : PyStr := s.map charLower

/-- Python `str.split(c)`: split at every occurrence of the character `c`.
The result always has at least one element. -/
def splitOnChar (c : Char) : PyStr → List PyStr
  | [] => [[]]
  | a :: rest =>
    match splitOnChar c rest with
    | [] => [[a]]
    | h :: t => if a = c then [] :: h :: t else (a :: h) :: t

/-- Number of trailing `'0'` characters (what `rstrip('0')` removes). -/
def trailZeroCount (s : PyStr) : ℕ := (s.reverse.takeWhile (fun c => c = '0')).length

/-- Python `str.rstrip('0')`. -/
def rstrip0 (s : PyStr) : PyStr := (s.reverse.dropWhile (fun c => c = '0')).reverse

/-- Python `str.strip('-')`: drop `'-'` characters from both ends. -/
def stripDashes (s : PyStr) : PyStr :=
  ((s.dropWhile (fun c => c = '-')).reverse.dropWhile (fun c => c = '-')).reverse

/-- Character of a decimal digit value below ten. -/
def digitChar (k : ℕ) : Char := Char.ofNat (48 + k)

/-- Test for an ASCII decimal digit. -/
def isDigitCh (c : Char) : Bool := decide ('0' ≤ c) && decide (c ≤ '9')

/-- Little-endian base-ten digits by fuelled structural recursion
(agrees with `Nat.digits 10` once the fuel dominates the input, and
unlike it reduces inside the kernel). -/
def digitsLE : ℕ → ℕ → List ℕ
  | 0, _ => []
  | fuel + 1, n => if n = 0 then [] else n % 10 :: digitsLE fuel (n / 10)

/-- Base-ten logarithm by fuelled structural recursion (agrees with
`Nat.log 10` once the fuel dominates the input). -/
def natLog10 : ℕ → ℕ → ℕ
  | 0, _ => 0
  | fuel + 1, n => if n < 10 then 0 else natLog10 fuel (n / 10) + 1

/-- Big-endian digit characters of a natural number; empty for zero. -/
def natChars (m : ℕ) : List Char := ((digitsLE m m).map digitChar).reverse

/-- Big-endian digit characters of a natural number, `"0"` for zero
(Python `str` of a nonnegative int). -/
def natCharsZ (m : ℕ) : List Char := if m = 0 then ['0'] else natChars m

/-- Python `str` of an int. -/
def intChars (z : ℤ) : PyStr := (if z < 0 then ['-'] else []) ++ natCharsZ z.natAbs

/-- Numeric value of a big-endian string of digit characters. -/
def digitsToNat (s : List Char) : ℕ := s.foldl (fun a c => 10 * a + (c.toNat - 48)) 0

/-- Integer power of ten as a rational, via kernel-friendly natural
powers (equal to `(10 : ℚ) ^ e`). -/
def qpow10 : ℤ → ℚ
  | .ofNat n => ((10 ^ n : ℕ) : ℚ)
  | .negSucc n => mkRat 1 (10 ^ (n + 1))

/-- Addition on rationals through `Rat.divInt`, which, unlike the
library operation, is kernel-reducible (equal to `a + b`). -/
def qAdd (a b : ℚ) : ℚ := Rat.divInt (a.num * b.den + b.num * a.den) (a.den * b.den)

/-- Subtraction on rationals through `Rat.divInt` (equal to `a - b`). -/
def qSub (a b : ℚ) : ℚ := Rat.divInt (a.num * b.den - b.num * a.den) (a.den * b.den)

/-- Multiplication on rationals through `Rat.divInt` (equal to `a * b`). -/
def qMul (a b : ℚ) : ℚ := Rat.divInt (a.num * b.num) (a.den * b.den)

/-- Division on rationals through `Rat.divInt` (equal to `a / b`,
with value `0` at a zero divisor). -/
def qDiv (a b : ℚ) : ℚ := Rat.divInt (a.num * b.den) (a.den * b.num)

/-- Round a rational to the nearest integer, ties to even (the rounding
CPython uses when formatting decimal digit strings). -/
def roundHE (q : ℚ) : ℤ :=
  let f := ⌊q⌋
  let r := qSub q (f : ℚ)
  if r < mkRat 1 2 then f
  else if mkRat 1 2 < r then f + 1
  else if 2 ∣ f then f else f + 1

/-- Least `m` with `d ≤ n * 10 ^ m`, found by fuelled search. -/
def expSearch (n d : ℕ) : ℕ → ℕ
  | 0 => 0
  | fuel + 1 => if d ≤ n then 0 else expSearch (n * 10) d fuel + 1

/-- Decimal exponent of a nonzero rational: the unique `k` with
`10 ^ k ≤ |q| < 10 ^ (k + 1)` (junk value at zero). -/
def decExp (q : ℚ) : ℤ :=
  let n := q.num.natAbs
  let d := q.den
  if d ≤ n then (natLog10 (n / d) (n / d) : ℤ)
  else -(expSearch n d d : ℤ)

/-- Round `|q|` to `n` significant digits: returns `(M, k)` with
`M` the `n`-digit mantissa (`10 ^ (n-1) ≤ M < 10 ^ n` for nonzero `q`)
and `k` the decimal exponent, renormalized when rounding carries. -/
def sciDigits (q : ℚ) (n : ℕ) : ℕ × ℤ :=
  let k := decExp q
  let M := (roundHE (qMul |q| (qpow10 ((n : ℤ) - 1 - k)))).toNat
  if M = 10 ^ n then (10 ^ (n - 1), k + 1) else (M, k)

/-- Exponent suffix of CPython scientific formatting: sign then the
exponent magnitude padded to at least two digits. -/
def expChars (k : ℤ) : List Char :=
  (if k < 0 then ['-'] else ['+']) ++
    (if k.natAbs < 10 then '0' :: natCharsZ k.natAbs else natCharsZ k.natAbs)

/-- Mantissa digits `M` of width `n` rendered as `d.rest`. -/
def mantissaChars (M : ℕ) : List Char :=
  match natChars M with
  | [] => ['0', '.']
  | d :: rest => d :: '.' :: rest

/-- CPython `f-string` scientific format of a rational at eight fractional
digits, `f"{q:.8e}"` (used by the parser's normalization step). -/
def formatE8 (q : ℚ) : PyStr :=
  let p := sciDigits q 9
  (if q < 0 then ['-'] else []) ++ mantissaChars p.1 ++ 'e' :: expChars p.2

/-- CPython fixed-point format `f"{q:.{prec}f}"`. -/
def formatF (q : ℚ) (prec : ℕ) : PyStr :=
  let N := (roundHE (qMul |q| (qpow10 (prec : ℤ)))).toNat
  let ds := natCharsZ N
  let ds := List.replicate (prec + 1 - ds.length) '0' ++ ds
  (if q < 0 then ['-'] else []) ++
    (if prec = 0 then ds else ds.take (ds.length - prec) ++ '.' :: ds.drop (ds.length - prec))

/-- CPython general format with alternate flag, `f"{q:#.{prec}g}"`:
`prec` significant digits, fixed-point when the decimal exponent `k`
satisfies `-4 ≤ k < prec`, scientific otherwise; the `#` flag keeps
trailing zeros and the decimal point. -/
def formatG (q : ℚ) (prec : ℕ) : PyStr :=
  let p := max prec 1
  if q = 0 then '0' :: '.' :: List.replicate (p - 1) '0'
  else
    let pr := sciDigits q p
    let M := pr.1
    let k := pr.2
    let sgn : PyStr := if q < 0 then ['-'] else []
    if -4 ≤ k ∧ k < (p : ℤ) then
      if 0 ≤ k then
        sgn ++ (natChars M).take (k.toNat + 1) ++ '.' :: (natChars M).drop (k.toNat + 1)
      else
        sgn ++ '0' :: '.' :: List.replicate (-k - 1).toNat '0' ++ natChars M
    else
      sgn ++ mantissaChars M ++ 'e' :: expChars k

/-- CPython `round(q, nd)` on a finite float, exact in the model:
round to `nd` decimal places (ties to even), `nd` possibly negative. -/
def pyRound (q : ℚ) (nd : ℤ) : ℚ :=
  qMul ((roundHE (qMul q (qpow10 nd)) : ℤ) : ℚ) (qpow10 (-nd))

/-- Unsigned digit-run body for `int()`. -/
def intCore (r : PyStr) : Except Err ℤ :=
  if r ≠ [] ∧ r.all isDigitCh then .ok (digitsToNat r : ℤ) else .error .valueError

/-- Python `int(s)` on a decimal literal: optional sign, then at least
one digit. -/
def pyIntLit (s : PyStr) : Except Err ℤ :=
  match s with
  | [] => .error .valueError
  | c :: r =>
    if c = '+' then intCore r
    else if c = '-' then do
      let v ← intCore r
      .ok (-v)
    else intCore (c :: r)

/-- Value of a `float()` mantissa: `digits`, `digits.`, `digits.digits`
or `.digits`. -/
def mantVal (mant : PyStr) : Except Err ℚ :=
  match splitOnChar '.' mant with
  | [ip] =>
    if ip ≠ [] ∧ ip.all isDigitCh then .ok (digitsToNat ip : ℚ) else .error .valueError
  | [ip, fp] =>
    if (ip ≠ [] ∨ fp ≠ []) ∧ ip.all isDigitCh ∧ fp.all isDigitCh then
      .ok (qAdd (digitsToNat ip : ℚ) (qDiv (digitsToNat fp : ℚ) (qpow10 (fp.length : ℤ))))
    else .error .valueError
  | _ => .error .valueError

/-- Unsigned decimal-literal body for `float()`: a mantissa with an
optional `e`-exponent. -/
def pyFloatBody (r : PyStr) : Except Err ℚ :=
  match splitOnChar 'e' r with
  | [mant] => mantVal mant
  | [mant, ex] => do
    let m ← mantVal mant
    let e ← pyIntLit ex
    .ok (qMul m (qpow10 e))
  | _ => .error .valueError

/-- Python `float(s)` on a decimal literal (the model covers finite
decimal literals; other accepted spellings such as `inf` are outside the
inputs the claims exercise). -/
def pyFloatLit (s : PyStr) : Except Err ℚ :=
  match toLowerL s with
  | [] => .error .valueError
  | c :: r =>
    if c = '+' then pyFloatBody r
    else if c = '-' then do
      let v ← pyFloatBody r
      .ok (-v)
    else pyFloatBody (c :: r)

/-- One step of `find_sigfigs_lsf`, fuelled to model Python's recursion
limit (`RecursionError` when the fuel runs out).  Follows the source
line by line: scientific branch, zero branch, and the normalization
branch that reformats through `f"{float(x):.8e}"` and recurses. -/
def findSigfigsLsfF : ℕ → PyStr → Except Err (ℕ × ℤ)
  | 0, _ => .error .recursionError
  | fuel + 1, x0 =>
    let x := toLowerL x0
    if 'e' ∈ x then
      match splitOnChar 'e' x with
      | m :: ex :: _ =>
        let m' := m.filter (fun c => ¬c = '-')
        let sf := m'.length - 1
        (match splitOnChar '.' m' with
         | _ :: fp :: _ => do
            let e ← pyIntLit ex
            if 0 < fp.length then .ok (sf, -(fp.length : ℤ) + e) else .ok (sf, e)
         | _ => .error .indexError)
      | _ => .error .indexError
    else
      match pyFloatLit x with
      | .error e => .error e
      | .ok v =>
        if v = 0 then
          match splitOnChar '.' x with
          | _ :: fp :: _ =>
            .ok (((stripDashes x).filter (fun c => ¬c = '.')).length, -(fp.length : ℤ))
          | _ => .error .indexError
        else
          match splitOnChar 'e' (formatE8 v) with
          | mant :: ex :: _ =>
            let mant' :=
              if '.' ∈ x then
                let s := x.filter (fun c => ¬c = '.')
                rstrip0 mant ++ List.replicate (trailZeroCount s) '0'
              else rstrip0 mant
            findSigfigsLsfF fuel (mant' ++ 'e' :: ex)
          | _ => .error .indexError

/-- The parser `find_sigfigs_lsf`: significant-digit count and position
of the least significant figure of a decimal literal.  Python's default
recursion limit supplies the fuel. -/
def find_sigfigs_lsf (x : PyStr) : Except Err (ℕ × ℤ) := findSigfigsLsfF 1000 x

/-- A Python float value: an exact rational in the model, or one of the
IEEE special values. -/
inductive PyFloat where
  | fin (q : ℚ)
  | inf
  | ninf
  | nan
deriving DecidableEq

/-- A sig-fig count: a nonnegative integer or `math.inf`. -/
inductive SFCount where
  | fin (n : ℕ)
  | unb
deriving DecidableEq

/-- Python `min` on two sig-fig counts (`min` returns its first argument
on ties). -/
def SFCount.minC : SFCount → SFCount → SFCount
  | .fin a, .fin b => .fin (min a b)
  | .fin a, .unb => .fin a
  | .unb, .fin b => .fin b
  | .unb, .unb => .unb

/-- The `lsf` attribute: an integer position, the NaN/Infinity marker
`'n'`, the empty-string marker `'.'`, or never assigned at all. -/
inductive Lsf where
  | i (z : ℤ)
  | nmark
  | dotmark
  | unset
deriving DecidableEq

/-- Python truthiness of a value passed as the `exponent` argument
(`0` is falsy; the marker strings are nonempty, hence truthy). -/
def Lsf.truthy : Lsf → Bool
  | .i z => decide (z ≠ 0)
  | _ => true

/-- The `SigFig` record: magnitude, sig-fig count, lsf position. -/
structure SigFig where
  value : PyFloat
  sf : SFCount
  lsf : Lsf
deriving DecidableEq

/-- Python `value == 0` on a float. -/
def pyEqZero : PyFloat → Bool
  | .fin q => decide (q = 0)
  | _ => false

/-- Python `math.isnan`. -/
def pyIsNan : PyFloat → Bool
  | .nan => true
  | _ => false

/-- Python `abs` on a float. -/
def pyAbs : PyFloat → PyFloat
  | .fin q => .fin |q|
  | .inf => .inf
  | .ninf => .inf
  | .nan => .nan

/-- Python `+` on floats. -/
def pyAdd : PyFloat → PyFloat → PyFloat
  | .nan, _ => .nan
  | _, .nan => .nan
  | .fin a, .fin b => .fin (qAdd a b)
  | .fin _, v => v
  | v, .fin _ => v
  | .inf, .inf => .inf
  | .ninf, .ninf => .ninf
  | .inf, .ninf => .nan
  | .ninf, .inf => .nan

/-- Python binary `-` on floats. -/
def pySub : PyFloat → PyFloat → PyFloat
  | .nan, _ => .nan
  | _, .nan => .nan
  | .fin a, .fin b => .fin (qSub a b)
  | .fin _, .inf => .ninf
  | .fin _, .ninf => .inf
  | .inf, .fin _ => .inf
  | .ninf, .fin _ => .ninf
  | .inf, .inf => .nan
  | .ninf, .ninf => .nan
  | .inf, .ninf => .inf
  | .ninf, .inf => .ninf

/-- Python `*` on floats. -/
def pyMul : PyFloat → PyFloat → PyFloat
  | .nan, _ => .nan
  | _, .nan => .nan
  | .fin a, .fin b => .fin (qMul a b)
  | .fin a, .inf => if a = 0 then .nan else if a < 0 then .ninf else .inf
  | .fin a, .ninf => if a = 0 then .nan else if a < 0 then .inf else .ninf
  | .inf, .fin b => if b = 0 then .nan else if b < 0 then .ninf else .inf
  | .ninf, .fin b => if b = 0 then .nan else if b < 0 then .inf else .ninf
  | .inf, .inf => .inf
  | .ninf, .ninf => .inf
  | .inf, .ninf => .ninf
  | .ninf, .inf => .ninf

/-- Python `/` on floats; division by exact zero raises. -/
def pyDiv : PyFloat → PyFloat → Except Err PyFloat
  | _, .fin 0 => .error .zeroDivisionError
  | .nan, _ => .ok .nan
  | _, .nan => .ok .nan
  | .fin a, .fin b => .ok (.fin (qDiv a b))
  | .fin _, .inf => .ok (.fin 0)
  | .fin _, .ninf => .ok (.fin 0)
  | .inf, .fin b => .ok (if b < 0 then .ninf else .inf)
  | .ninf, .fin b => .ok (if b < 0 then .inf else .ninf)
  | _, _ => .ok .nan

/-- Python `//` on floats (CPython `float_divmod` semantics: a finite
value floor-divided by `inf` gives `0.0` when the operands' signs agree
and `-1.0` otherwise). -/
def pyFloorDiv : PyFloat → PyFloat → Except Err PyFloat
  | _, .fin 0 => .error .zeroDivisionError
  | .nan, _ => .ok .nan
  | _, .nan => .ok .nan
  | .fin a, .fin b => .ok (.fin ((⌊qDiv a b⌋ : ℤ) : ℚ))
  | .fin a, .inf => .ok (.fin (if a < 0 then -1 else 0))
  | .fin a, .ninf => .ok (.fin (if 0 < a then -1 else 0))
  | .inf, _ => .ok .nan
  | .ninf, _ => .ok .nan

/-- The `StrictInt` coercion: succeeds exactly on values with zero
fractional part (`ValueError` otherwise, also on `inf` / `nan`, whose
`divmod` remainder is a truthy `nan`). -/
def strictInt : PyFloat → Except Err ℤ
  | .fin q => if q.den = 1 then .ok q.num else .error .valueError
  | _ => .error .valueError

/-- Python `round(v, nd)` on a float. -/
def pyRoundP : PyFloat → ℤ → PyFloat
  | .fin q, nd => .fin (pyRound q nd)
  | v, _ => v

/-- Fixed-point formatting lifted to floats. -/
def formatFP : PyFloat → ℕ → PyStr
  | .fin q, p => formatF q p
  | .inf, _ => pystr "inf"
  | .ninf, _ => pystr "-inf"
  | .nan, _ => pystr "nan"

/-- General formatting lifted to floats. -/
def formatGP : PyFloat → ℕ → PyStr
  | .fin q, p => formatG q p
  | .inf, _ => pystr "inf"
  | .ninf, _ => pystr "-inf"
  | .nan, _ => pystr "nan"

/-- Model of `repr` of a float (used by `f"{self.value}"` when the
sig-fig count is unbounded, and by the dead fallback branch of `+`):
for a finite value, the shortest `%g`-style decimal that denotes it
exactly, with a forced decimal point; specials print their names.
In the model a value with no finite decimal expansion is rendered at
17 significant digits, mirroring `repr`'s shortest-roundtrip bound. -/
def reprQ (q : ℚ) : PyStr :=
  if q = 0 then pystr "0.0"
  else
    let w := (List.range 17).findSome? fun i =>
      let pr := sciDigits q (i + 1)
      if qMul (pr.1 : ℚ) (qpow10 (pr.2 - (i : ℤ))) = |q| then some (i + 1) else none
    let n := w.getD 17
    let pr := sciDigits q n
    let M := rstrip0 (natChars pr.1)
    let k := pr.2
    let sgn : PyStr := if q < 0 then ['-'] else []
    if -4 ≤ k ∧ k < 16 then
      if 0 ≤ k then
        let ds := M ++ List.replicate (k.toNat + 1 - M.length) '0'
        sgn ++ ds.take (k.toNat + 1) ++ '.' ::
          (if ds.length ≤ k.toNat + 1 then ['0'] else ds.drop (k.toNat + 1))
      else
        sgn ++ '0' :: '.' :: List.replicate (-k - 1).toNat '0' ++ M
    else
      sgn ++ (match M with
        | [] => ['0']
        | [d] => [d]
        | d :: rest => d :: '.' :: rest) ++ 'e' :: expChars k

/-- Python `repr` lifted to floats. -/
def reprPyFloat : PyFloat → PyStr
  | .fin q => reprQ q
  | .inf => pystr "inf"
  | .ninf => pystr "-inf"
  | .nan => pystr "nan"

/-- The constructor's lsf derivation for a numeric value with an
explicit count: reparse the `f"{value:#.{sf}g}"` rendering (an infinite
count cannot be used as a format precision and raises). -/
def deriveLsf (v : PyFloat) (sfc : SFCount) : Except Err ℤ :=
  match sfc with
  | .unb => .error .typeError
  | .fin n => do
    let p ← find_sigfigs_lsf (formatGP v n)
    .ok p.2

/-- `SigFig.__init__` on a numeric value (the not-a-string branch):
`nan` and `inf` take unbounded counts and the `'n'` marker (the code
stores `+inf` as the magnitude even for `-inf`); otherwise the count is
mandatory, and the lsf comes from a truthy `exponent` argument or is
re-derived from the rendered value. -/
def fromFloat (v : PyFloat) (sfArg : Option SFCount) (expArg : Option Lsf) :
    Except Err SigFig :=
  match v with
  | .nan => .ok ⟨.nan, .unb, .nmark⟩
  | .inf => .ok ⟨.inf, .unb, .nmark⟩
  | .ninf => .ok ⟨.inf, .unb, .nmark⟩
  | .fin q =>
    match sfArg with
    | none => .error .valueError
    | some sfc =>
      match expArg with
      | some l =>
        if l.truthy then .ok ⟨.fin q, sfc, l⟩
        else do
          let z ← deriveLsf (.fin q) sfc
          .ok ⟨.fin q, sfc, .i z⟩
      | none => do
        let z ← deriveLsf (.fin q) sfc
        .ok ⟨.fin q, sfc, .i z⟩

/-- `SigFig.__init__` on a string.  The empty-string branch assigns the
NaN state but then falls through (the source lacks an `elif`) into
`float('')`, which raises `ValueError`.  A string parsing to zero takes
count `0` with the parser's lsf; a nonzero string takes the parser's
pair, except that an explicit `sf=math.inf` is kept and `lsf` is then
never assigned. -/
def fromString (s : PyStr) (sfArg : Option SFCount) : Except Err SigFig :=
  match pyFloatLit s with
  | .error e => .error e
  | .ok v =>
    if v = 0 then do
      let p ← find_sigfigs_lsf s
      .ok ⟨.fin v, .fin 0, .i p.2⟩
    else
      if sfArg = some .unb then .ok ⟨.fin v, .unb, .unset⟩
      else do
        let p ← find_sigfigs_lsf s
        .ok ⟨.fin v, .fin p.1, .i p.2⟩

/-- `SigFig.__str__`: specials and unbounded counts print the raw value;
a zero count prints the magnitude fixed to `-lsf` decimals (negative
precision, a marker lsf, or a missing one raises); otherwise the value
prints at `sf` significant digits with trailing zeros kept. -/
def strFn (a : SigFig) : Except Err PyStr :=
  match a.sf with
  | .unb => .ok (reprPyFloat a.value)
  | .fin 0 =>
    match a.lsf with
    | .i z => if 0 < z then .error .valueError else .ok (formatFP (pyAbs a.value) (-z).toNat)
    | .unset => .error .attributeError
    | _ => .error .typeError
  | .fin (n + 1) => .ok (formatGP a.value (n + 1))

/-- `SigFig.__eq__`: two zero magnitudes are equal; a NaN on either side
is unequal; otherwise compare the rendered strings. -/
def eqFn (a b : SigFig) : Except Err Bool :=
  if pyEqZero a.value && pyEqZero b.value then .ok true
  else if pyIsNan a.value || pyIsNan b.value then .ok false
  else do
    let sa ← strFn a
    let sb ← strFn b
    .ok (decide (sa = sb))

/-- `SigFig.__ne__`: plain inequality of the rendered strings (it does
not share the zero and NaN special cases of `__eq__`). -/
def neFn (a b : SigFig) : Except Err Bool := do
  let sa ← strFn a
  let sb ← strFn b
  .ok (!decide (sa = sb))

/-- Python `min` on two lsf attributes: defined on two integers (and on
two equal marker strings); reading a never-assigned attribute raises
`AttributeError`, and comparing a marker with an integer raises
`TypeError`. -/
def lsfMin : Lsf → Lsf → Except Err Lsf
  | .unset, _ => .error .attributeError
  | _, .unset => .error .attributeError
  | .i a, .i b => .ok (.i (min a b))
  | .nmark, .nmark => .ok .nmark
  | .dotmark, .dotmark => .ok .dotmark
  | _, _ => .error .typeError

/-- `SigFig.__mul__` restricted to two `SigFig` operands: the raw
product with the minimum count; a zero minimum additionally passes the
minimum lsf so the rounding position survives. -/
def mulSF (a b : SigFig) : Except Err SigFig :=
  let result := pyMul a.value b.value
  let sig := SFCount.minC a.sf b.sf
  if sig = .fin 0 then do
    let m ← lsfMin a.lsf b.lsf
    fromFloat result (some (.fin 0)) (some m)
  else fromFloat result (some sig) none

/-- `SigFig.__truediv__` restricted to two `SigFig` operands. -/
def divSF (a b : SigFig) : Except Err SigFig := do
  let result ← pyDiv a.value b.value
  let sig := SFCount.minC a.sf b.sf
  if sig = .fin 0 then do
    let m ← lsfMin a.lsf b.lsf
    fromFloat result (some (.fin 0)) (some m)
  else fromFloat result (some sig) none

/-- `SigFig.__floordiv__` restricted to two `SigFig` operands. -/
def floordivSF (a b : SigFig) : Except Err SigFig := do
  let result ← pyFloorDiv a.value b.value
  let sig := SFCount.minC a.sf b.sf
  if sig = .fin 0 then do
    let m ← lsfMin a.lsf b.lsf
    fromFloat result (some (.fin 0)) (some m)
  else fromFloat result (some sig) none

/-- Shared tail of `__add__` and `__sub__` for a nonnegative precision:
round the raw result at that decimal place, reparse through the strict
integer coercion, and on its `ValueError` run the operator-specific
fallback (any other exception from the `try` block propagates). -/
def additiveRoundNonneg (result : PyFloat) (precision : ℤ)
    (fallback : PyFloat → Except Err SigFig) : Except Err SigFig :=
  let rounded := pyRoundP result (-precision)
  let attempt : Except Err SigFig := do
    let z ← strictInt rounded
    let p ← find_sigfigs_lsf (intChars z)
    fromFloat result (some (.fin p.1)) none
  match attempt with
  | .error .valueError => fallback rounded
  | r => r

/-- The fallback of `__add__`: parse the rounded float's `str` form,
degrading to NaN with an unbounded count on `RecursionError`. -/
def addFallback (result : PyFloat) (rounded : PyFloat) : Except Err SigFig :=
  match (do
    let p ← find_sigfigs_lsf (reprPyFloat rounded)
    fromFloat result (some (.fin p.1)) none : Except Err SigFig) with
  | .error .recursionError => fromFloat .nan (some .unb) none
  | r => r

/-- `SigFig.__add__` restricted to two `SigFig` operands.  An `'n'` lsf
marker on either side short-circuits into `SigFig(result)` (which
raises `ValueError` for a finite result); otherwise the result is
reparsed at precision `max(lsf, lsf)`. -/
def addSF (a b : SigFig) : Except Err SigFig :=
  let result := pyAdd a.value b.value
  match a.lsf with
  | .unset => .error .attributeError
  | .nmark => fromFloat result none none
  | la =>
    match b.lsf with
    | .unset => .error .attributeError
    | .nmark => fromFloat result none none
    | lb =>
      match la, lb with
      | .i za, .i zb =>
        let precision := max za zb
        if precision < 0 then do
          let rounded := formatFP result (-precision).toNat
          let p ← find_sigfigs_lsf rounded
          fromFloat result (some (.fin p.1)) none
        else
          additiveRoundNonneg result precision (addFallback result)
      | _, _ => .error .typeError

/-- The all-zero test of `__sub__`: `int(c)` of every character of the
formatted difference with `'.'` and `'-'` removed, then `any`
(a non-digit character would raise `ValueError`). -/
def checkAnyNonzero (s : PyStr) : Except Err Bool :=
  let t := s.filter fun c => ¬c = '.' ∧ ¬c = '-'
  if t.all isDigitCh then .ok (t.any fun c => ¬c = '0') else .error .valueError

/-- `SigFig.__sub__` restricted to two `SigFig` operands.  Differs from
`__add__` in two ways: a negative-precision result whose rounded digits
are all zero is reported as zero sig figs at that decimal position, and
the nonnegative-precision fallback calls the undefined name
`find_sigfigs`, so reaching it raises `NameError`. -/
def subSF (a b : SigFig) : Except Err SigFig :=
  let result := pySub a.value b.value
  match a.lsf with
  | .unset => .error .attributeError
  | .nmark => fromFloat result none none
  | la =>
    match b.lsf with
    | .unset => .error .attributeError
    | .nmark => fromFloat result none none
    | lb =>
      match la, lb with
      | .i za, .i zb =>
        let precision := max za zb
        if precision < 0 then do
          let rounded := formatFP result (-precision).toNat
          let any0 ← checkAnyNonzero rounded
          if any0 then do
            let p ← find_sigfigs_lsf rounded
            fromFloat result (some (.fin p.1)) none
          else
            match splitOnChar '.' rounded with
            | _ :: fp :: _ => fromFloat result (some (.fin 0)) (some (.i (-(fp.length : ℤ))))
            | _ => .error .indexError
        else
          additiveRoundNonneg result precision (fun _ => .error .nameError)
      | _, _ => .error .typeError

/-- Number of characters after the first `'.'` of a string (the length
of `s.split('.')[1]`), zero when there is no dot. -/
def fracLen (s : PyStr) : ℕ :=
  match splitOnChar '.' s with
  | _ :: fp :: _ => fp.length
  | _ => 0

/-! Bridging lemmas: the kernel-reducible arithmetic used inside the
embedding agrees with the standard library operations. -/

theorem qpow10_eq (e : ℤ) : qpow10 e = (10 : ℚ) ^ e := by
  cases e with
  | ofNat n =>
    show ((10 ^ n : ℕ) : ℚ) = (10 : ℚ) ^ (Int.ofNat n)
    rw [Int.ofNat_eq_coe, zpow_natCast]
    push_cast
    rfl
  | negSucc n =>
    show mkRat 1 (10 ^ (n + 1)) = (10 : ℚ) ^ (Int.negSucc n)
    rw [Rat.mkRat_eq_div, zpow_negSucc]
    push_cast
    rw [one_div]

theorem qpow10_pos (e : ℤ) : 0 < qpow10 e := by
  rw [qpow10_eq]
  positivity

theorem qAdd_eq (a b : ℚ) : qAdd a b = a + b := by
  rw [qAdd, Rat.divInt_eq_div]
  have ha : ((a.den : ℤ) : ℚ) ≠ 0 := by
    exact_mod_cast (Nat.cast_ne_zero (R := ℚ)).mpr a.den_nz
  have hb : ((b.den : ℤ) : ℚ) ≠ 0 := by
    exact_mod_cast (Nat.cast_ne_zero (R := ℚ)).mpr b.den_nz
  conv_rhs => rw [← Rat.num_div_den a, ← Rat.num_div_den b]
  push_cast
  field_simp

theorem qSub_eq (a b : ℚ) : qSub a b = a - b := by
  rw [qSub, Rat.divInt_eq_div]
  have ha : ((a.den : ℤ) : ℚ) ≠ 0 := by
    exact_mod_cast (Nat.cast_ne_zero (R := ℚ)).mpr a.den_nz
  have hb : ((b.den : ℤ) : ℚ) ≠ 0 := by
    exact_mod_cast (Nat.cast_ne_zero (R := ℚ)).mpr b.den_nz
  conv_rhs => rw [← Rat.num_div_den a, ← Rat.num_div_den b]
  push_cast
  field_simp
  ring

theorem qMul_eq (a b : ℚ) : qMul a b = a * b := by
  rw [qMul, Rat.divInt_eq_div]
  have ha : ((a.den : ℤ) : ℚ) ≠ 0 := by
    exact_mod_cast (Nat.cast_ne_zero (R := ℚ)).mpr a.den_nz
  have hb : ((b.den : ℤ) : ℚ) ≠ 0 := by
    exact_mod_cast (Nat.cast_ne_zero (R := ℚ)).mpr b.den_nz
  conv_rhs => rw [← Rat.num_div_den a, ← Rat.num_div_den b]
  push_cast
  field_simp

theorem qDiv_eq (a b : ℚ) : qDiv a b = a / b := by
  rcases eq_or_ne b 0 with rfl | hb0
  · show Rat.divInt (a.num * (0 : ℚ).den) (a.den * (0 : ℚ).num) = a / 0
    norm_num [Rat.divInt_eq_div]
  · rw [qDiv, Rat.divInt_eq_div]
    have ha : ((a.den : ℤ) : ℚ) ≠ 0 := by
      exact_mod_cast (Nat.cast_ne_zero (R := ℚ)).mpr a.den_nz
    have hb : ((b.den : ℤ) : ℚ) ≠ 0 := by
      exact_mod_cast (Nat.cast_ne_zero (R := ℚ)).mpr b.den_nz
    have hbn : ((b.num : ℤ) : ℚ) ≠ 0 := by
      exact_mod_cast (Rat.num_ne_zero).mpr hb0
    conv_rhs => rw [← Rat.num_div_den a, ← Rat.num_div_den b]
    push_cast
    field_simp

/-! Properties of round-half-to-even. -/

theorem roundHE_def (q : ℚ) :
    roundHE q = if q - ⌊q⌋ < 1 / 2 then ⌊q⌋
      else if 1 / 2 < q - ⌊q⌋ then ⌊q⌋ + 1
      else if 2 ∣ ⌊q⌋ then ⌊q⌋ else ⌊q⌋ + 1 := by
  have h2 : mkRat 1 2 = (1 : ℚ) / 2 := by
    rw [Rat.mkRat_eq_div]
    norm_num
  simp only [roundHE, qSub_eq, h2]

theorem roundHE_intCast (z : ℤ) : roundHE (z : ℚ) = z := by
  rw [roundHE_def]
  norm_num

theorem abs_sub_roundHE_le (q : ℚ) : |q - roundHE q| ≤ 1 / 2 := by
  have h0 : (0 : ℚ) ≤ q - ⌊q⌋ := by
    have := Int.floor_le q
    linarith
  have h1 : q - ⌊q⌋ < 1 := by
    have := Int.lt_floor_add_one q
    linarith
  rw [roundHE_def]
  split_ifs with ha hb hc <;> rw [abs_le] <;> push_cast <;> constructor <;> linarith

theorem roundHE_eq_of_abs_lt {q : ℚ} {z : ℤ} (h : |q - z| < 1 / 2) : roundHE q = z := by
  have h' := abs_lt.mp h
  rcases le_or_lt (z : ℚ) q with hq | hq
  · have hf : ⌊q⌋ = z := by
      rw [Int.floor_eq_iff]
      refine ⟨hq, ?_⟩
      linarith [h'.2]
    rw [roundHE_def, hf]
    rw [if_pos (by linarith [h'.2] : q - (z : ℚ) < 1 / 2)]
  · have hf : ⌊q⌋ = z - 1 := by
      rw [Int.floor_eq_iff]
      constructor
      · push_cast
        linarith [h'.1]
      · push_cast
        linarith
    rw [roundHE_def, hf]
    have hnot : ¬(q - ((z - 1 : ℤ) : ℚ) < 1 / 2) := by
      push_cast
      push_neg
      linarith [h'.1]
    have hgt : 1 / 2 < q - ((z - 1 : ℤ) : ℚ) := by
      push_cast
      linarith [h'.1]
    simp only [hnot, if_false, hgt, if_true]
    omega

theorem roundHE_nonneg {q : ℚ} (h : 0 ≤ q) : 0 ≤ roundHE q := by
  have : 0 ≤ ⌊q⌋ := Int.floor_nonneg.mpr h
  rw [roundHE_def]
  split_ifs <;> omega

/-! Specifications of the fuelled numeric helpers. -/

theorem natLog10_spec : ∀ fuel n, 1 ≤ n → n ≤ fuel →
    10 ^ natLog10 fuel n ≤ n ∧ n < 10 ^ (natLog10 fuel n + 1) := by
  intro fuel
  induction fuel with
  | zero => intro n h1 h2; omega
  | succ fuel ih =>
    intro n h1 h2
    rw [natLog10]
    split
    · simpa using by omega
    · have h10 : 10 ≤ n := by omega
      have hdiv1 : 1 ≤ n / 10 := (Nat.one_le_div_iff (by norm_num)).mpr h10
      have hdivf : n / 10 ≤ fuel := by
        have : n / 10 < n := Nat.div_lt_self (by omega) (by norm_num)
        omega
      obtain ⟨hl, hr⟩ := ih (n / 10) hdiv1 hdivf
      have hmod := Nat.div_add_mod n 10
      have hm : n % 10 < 10 := Nat.mod_lt _ (by norm_num)
      constructor
      · have : 10 ^ (natLog10 fuel (n / 10) + 1) = 10 ^ natLog10 fuel (n / 10) * 10 := by
          ring
        rw [this]
        have h1' : 10 ^ natLog10 fuel (n / 10) * 10 ≤ n / 10 * 10 :=
          Nat.mul_le_mul_right 10 hl
        have h2' : n / 10 * 10 ≤ n := by omega
        omega
      · have : 10 ^ (natLog10 fuel (n / 10) + 1 + 1) =
            10 ^ (natLog10 fuel (n / 10) + 1) * 10 := by ring
        rw [this]
        have : n / 10 + 1 ≤ 10 ^ (natLog10 fuel (n / 10) + 1) := hr
        have h3 : (n / 10 + 1) * 10 ≤ 10 ^ (natLog10 fuel (n / 10) + 1) * 10 :=
          Nat.mul_le_mul_right 10 this
        omega

theorem expSearch_spec : ∀ fuel n d, d ≤ n * 10 ^ fuel →
    d ≤ n * 10 ^ expSearch n d fuel ∧ ∀ j, j < expSearch n d fuel → n * 10 ^ j < d := by
  intro fuel
  induction fuel with
  | zero =>
    intro n d h
    rw [expSearch]
    refine ⟨by simpa using h, ?_⟩
    intro j hj
    omega
  | succ fuel ih =>
    intro n d h
    rw [expSearch]
    split
    · refine ⟨by simpa, ?_⟩
      intro j hj
      omega
    · rename_i hnd
      push_neg at hnd
      have h' : d ≤ n * 10 * 10 ^ fuel := by
        rw [mul_assoc, mul_comm 10 (10 ^ fuel), ← pow_succ]
        exact h
      obtain ⟨h1, h2⟩ := ih (n * 10) d h'
      constructor
      · rw [pow_succ]
        rw [show n * (10 ^ expSearch (n * 10) d fuel * 10) =
          n * 10 * 10 ^ expSearch (n * 10) d fuel by ring] at *
        exact h1
      · intro j hj
        cases j with
        | zero => simpa using hnd
        | succ j' =>
          have : n * 10 * 10 ^ j' < d := h2 j' (by omega)
          calc n * 10 ^ (j' + 1) = n * 10 * 10 ^ j' := by ring
            _ < d := this

theorem decExp_spec (q : ℚ) (hq : q ≠ 0) :
    (10 : ℚ) ^ decExp q ≤ |q| ∧ |q| < (10 : ℚ) ^ (decExp q + 1) := by
  set n := q.num.natAbs with hn
  set d := q.den with hd
  have hd0 : 0 < d := q.pos
  have hn0 : 0 < n := by
    have := Rat.num_ne_zero.mpr hq
    omega
  have hdq : (0 : ℚ) < (d : ℚ) := by exact_mod_cast hd0
  have habs : |q| = (n : ℚ) / (d : ℚ) := by
    conv_lhs => rw [← Rat.num_div_den q]
    rw [abs_div, abs_of_pos (by exact_mod_cast hd0 : (0 : ℚ) < (q.den : ℚ)), hn,
      Int.cast_natAbs, Int.cast_abs]
  rw [habs]
  simp only [decExp]
  rw [← hn, ← hd]
  split
  · rename_i hdn
    set L := n / d with hL
    have hL1 : 1 ≤ L := (Nat.one_le_div_iff hd0).mpr hdn
    obtain ⟨hl, hr⟩ := natLog10_spec L L hL1 le_rfl
    set k := natLog10 L L with hk
    constructor
    · rw [zpow_natCast]
      rw [le_div_iff hdq]
      have : 10 ^ k * d ≤ L * d := Nat.mul_le_mul_right d hl
      have hLd : L * d ≤ n := Nat.div_mul_le_self n d
      calc ((10 : ℚ) ^ k) * d = ((10 ^ k * d : ℕ) : ℚ) := by push_cast; ring
        _ ≤ ((n : ℕ) : ℚ) := by exact_mod_cast le_trans this hLd
    · rw [show ((k : ℤ) + 1) = ((k + 1 : ℕ) : ℤ) by push_cast; ring, zpow_natCast]
      rw [div_lt_iff hdq]
      have h1 : n < (L + 1) * d := by
        have e1 := Nat.div_add_mod n d
        have e2 : n % d < d := Nat.mod_lt n hd0
        have e3 : d * L + n % d < d * L + d := Nat.add_lt_add_left e2 (d * L)
        calc n = d * L + n % d := (e1).symm
          _ < d * L + d := e3
          _ = (L + 1) * d := by ring
      have h2 : L + 1 ≤ 10 ^ (k + 1) := hr
      have h3 : (L + 1) * d ≤ 10 ^ (k + 1) * d := Nat.mul_le_mul_right d h2
      calc ((n : ℕ) : ℚ) < (((L + 1) * d : ℕ) : ℚ) := by exact_mod_cast h1
        _ ≤ ((10 ^ (k + 1) * d : ℕ) : ℚ) := by exact_mod_cast h3
        _ = (10 : ℚ) ^ (k + 1) * d := by push_cast; ring
  · rename_i hdn
    push_neg at hdn
    have hfuel : d ≤ n * 10 ^ d := by
      have h1 : d < 10 ^ d := Nat.lt_pow_self (by norm_num) d
      have h2 : 10 ^ d ≤ n * 10 ^ d := Nat.le_mul_of_pos_left _ hn0
      omega
    obtain ⟨h1, h2⟩ := expSearch_spec d n d hfuel
    set m := expSearch n d d with hm
    have hm1 : 1 ≤ m := by
      rcases Nat.eq_zero_or_pos m with h0 | h0
      · rw [h0] at h1
        simp at h1
        omega
      · exact h0
    constructor
    · rw [zpow_neg, zpow_natCast, inv_eq_one_div,
        div_le_div_iff (by positivity) hdq, one_mul]
      calc ((d : ℕ) : ℚ) ≤ ((n * 10 ^ m : ℕ) : ℚ) := by exact_mod_cast h1
        _ = (n : ℚ) * (10 : ℚ) ^ m := by push_cast; ring
    · have hex : (-(m : ℤ) + 1) = -((m - 1 : ℕ) : ℤ) := by
        push_cast [Nat.cast_sub hm1]
        ring
      rw [hex, zpow_neg, zpow_natCast, inv_eq_one_div,
        div_lt_div_iff hdq (by positivity), one_mul]
      have h4 : n * 10 ^ (m - 1) < d := h2 (m - 1) (by omega)
      calc (n : ℚ) * (10 : ℚ) ^ (m - 1) = ((n * 10 ^ (m - 1) : ℕ) : ℚ) := by
            push_cast
            ring
        _ < ((d : ℕ) : ℚ) := by exact_mod_cast h4

theorem zpow_ten_pos (e : ℤ) : (0 : ℚ) < (10 : ℚ) ^ e := by
  positivity

/-- Full specification of `sciDigits`: the mantissa has exactly `n`
digits, the represented value is within half an ulp of `|q|`, and the
exponent is the decimal exponent of `q`, bumped by one exactly when
rounding carried into a fresh power of ten. -/
theorem sciDigits_spec (q : ℚ) (hq : q ≠ 0) (n : ℕ) (hn : 1 ≤ n) :
    (10 ^ (n - 1) ≤ (sciDigits q n).1 ∧ (sciDigits q n).1 < 10 ^ n) ∧
    |(|q| - ((sciDigits q n).1 : ℚ) * (10 : ℚ) ^ ((sciDigits q n).2 - n + 1))| ≤
      1 / 2 * (10 : ℚ) ^ (decExp q - n + 1) ∧
    ((sciDigits q n).2 = decExp q ∨
      ((sciDigits q n).2 = decExp q + 1 ∧ (sciDigits q n).1 = 10 ^ (n - 1))) := by
  obtain ⟨hd1, hd2⟩ := decExp_spec q hq
  set k := decExp q with hk
  set X := |q| * (10 : ℚ) ^ ((n : ℤ) - 1 - k) with hX
  have h100 : (10 : ℚ) ≠ 0 := by norm_num
  have hpw : (0 : ℚ) < (10 : ℚ) ^ ((n : ℤ) - 1 - k) := zpow_ten_pos _
  have e1 : (10 : ℚ) ^ k * (10 : ℚ) ^ ((n : ℤ) - 1 - k) = (10 : ℚ) ^ ((n : ℤ) - 1) := by
    rw [← zpow_add₀ h100]
    congr 1
    ring
  have e2 : (10 : ℚ) ^ (k + 1) * (10 : ℚ) ^ ((n : ℤ) - 1 - k) = (10 : ℚ) ^ (n : ℤ) := by
    rw [← zpow_add₀ h100]
    congr 1
    ring
  have hx1 : (10 : ℚ) ^ ((n : ℤ) - 1) ≤ X := by
    rw [hX, ← e1]
    exact mul_le_mul_of_nonneg_right hd1 (le_of_lt hpw)
  have hx2 : X < (10 : ℚ) ^ (n : ℤ) := by
    rw [hX, ← e2]
    exact mul_lt_mul_of_pos_right hd2 hpw
  have hcast1 : (10 : ℚ) ^ ((n : ℤ) - 1) = ((10 ^ (n - 1) : ℕ) : ℚ) := by
    rw [show (n : ℤ) - 1 = ((n - 1 : ℕ) : ℤ) by omega, zpow_natCast]
    push_cast
    ring
  have hcast2 : (10 : ℚ) ^ (n : ℤ) = ((10 ^ n : ℕ) : ℚ) := by
    rw [zpow_natCast]
    push_cast
    ring
  have hr := abs_le.mp (abs_sub_roundHE_le X)
  have hM1 : ((10 ^ (n - 1) : ℕ) : ℤ) ≤ roundHE X := by
    by_contra hcon
    push_neg at hcon
    have h' : roundHE X ≤ ((10 ^ (n - 1) : ℕ) : ℤ) - 1 := by omega
    have h'' : ((roundHE X : ℤ) : ℚ) ≤ ((10 ^ (n - 1) : ℕ) : ℚ) - 1 := by
      exact_mod_cast h'
    rw [← hcast1] at h''
    linarith [hr.2, hx1]
  have hM2 : roundHE X ≤ ((10 ^ n : ℕ) : ℤ) := by
    by_contra hcon
    push_neg at hcon
    have h' : ((10 ^ n : ℕ) : ℤ) + 1 ≤ roundHE X := by omega
    have h'' : ((10 ^ n : ℕ) : ℚ) + 1 ≤ ((roundHE X : ℤ) : ℚ) := by exact_mod_cast h'
    rw [← hcast2] at h''
    linarith [hr.1, hx2]
  have hM0 : 0 ≤ roundHE X := le_trans (by positivity) hM1
  have htn : ((roundHE X).toNat : ℤ) = roundHE X := Int.toNat_of_nonneg hM0
  have hXq : ∀ M : ℚ, X * (10 : ℚ) ^ (k - n + 1) = |q| ∧
      (|q| - M * (10 : ℚ) ^ (k - n + 1)) = (X - M) * (10 : ℚ) ^ (k - n + 1) := by
    intro M
    have hback : X * (10 : ℚ) ^ (k - n + 1) = |q| := by
      rw [hX, mul_assoc, ← zpow_add₀ h100]
      rw [show (n : ℤ) - 1 - k + (k - n + 1) = 0 by ring, zpow_zero, mul_one]
    exact ⟨hback, by rw [← hback]; ring⟩
  have hXerr : ∀ M : ℚ, |X - M| ≤ 1 / 2 →
      |(|q| - M * (10 : ℚ) ^ (k - n + 1))| ≤ 1 / 2 * (10 : ℚ) ^ (k - n + 1) := by
    intro M hM
    rw [(hXq M).2, abs_mul, abs_of_pos (zpow_ten_pos (k - n + 1))]
    exact mul_le_mul_of_nonneg_right hM (le_of_lt (zpow_ten_pos _))
  simp only [sciDigits, ← hk]
  have hXdef : qMul |q| (qpow10 ((n : ℤ) - 1 - k)) = X := by
    rw [qMul_eq, qpow10_eq, hX]
  rw [hXdef]
  split
  · rename_i hcar
    refine ⟨⟨le_rfl, Nat.pow_lt_pow_right (by norm_num) (by omega)⟩, ?_, ?_⟩
    · have hM : |X - ((10 ^ (n - 1) : ℕ) : ℚ) * (10 : ℚ) ^ ((k + 1) - k)| ≤ 1 / 2 := by
        have hcar' : ((roundHE X : ℤ) : ℚ) = ((10 ^ n : ℕ) : ℚ) := by
          rw [← htn, hcar]
          push_cast
          ring
        have : ((10 ^ (n - 1) : ℕ) : ℚ) * (10 : ℚ) ^ ((k + 1) - k) = ((10 ^ n : ℕ) : ℚ) := by
          rw [show (k + 1) - k = (1 : ℤ) by ring, zpow_one]
          push_cast
          rw [← pow_succ]
          congr 1
          omega
        rw [this, ← hcar']
        exact abs_sub_roundHE_le X
      have := hXerr (((10 ^ (n - 1) : ℕ) : ℚ) * (10 : ℚ) ^ ((k + 1) - k))
        (by exact hM)
      calc |(|q| - ((10 ^ (n - 1) : ℕ) : ℚ) * (10 : ℚ) ^ (k + 1 - (n : ℤ) + 1))|
          = |(|q| - ((10 ^ (n - 1) : ℕ) : ℚ) * (10 : ℚ) ^ ((k + 1) - k) *
            (10 : ℚ) ^ (k - n + 1))| := by
            rw [mul_assoc, ← zpow_add₀ h100]
            congr 3
            ring
        _ ≤ 1 / 2 * (10 : ℚ) ^ (k - n + 1) := this
    · right
      exact ⟨rfl, rfl⟩
  · rename_i hcar
    have hlt : (roundHE X).toNat < 10 ^ n := by
      have h' : (roundHE X).toNat ≤ 10 ^ n := by
        have := hM2
        omega
      omega
    refine ⟨⟨by omega, hlt⟩, ?_, Or.inl rfl⟩
    have hMc : (((roundHE X).toNat : ℕ) : ℚ) = ((roundHE X : ℤ) : ℚ) := by
      exact_mod_cast htn
    have := hXerr ((roundHE X).toNat : ℚ) (by rw [hMc]; exact abs_sub_roundHE_le X)
    exact this

/-! String-manipulation lemmas. -/

theorem splitOnChar_ne_nil (c : Char) (s : PyStr) : splitOnChar c s ≠ [] := by
  induction s with
  | nil => simp [splitOnChar]
  | cons a rest ih =>
    rcases hsp : splitOnChar c rest with _ | ⟨hd, tl⟩
    · exact absurd hsp ih
    · rw [splitOnChar, hsp]
      by_cases hac : a = c <;> simp [hac]

theorem splitOnChar_of_not_mem {c : Char} {s : PyStr} (h : c ∉ s) : splitOnChar c s = [s] := by
  induction s with
  | nil => rfl
  | cons a rest ih =>
    have hac : ¬a = c := fun he => h (he ▸ List.mem_cons_self a rest)
    have hrest : c ∉ rest := fun hm => h (List.mem_cons_of_mem _ hm)
    simp only [splitOnChar, ih hrest]
    simp [hac]

theorem splitOnChar_append_cons (c : Char) {xs : PyStr} (ys : PyStr) (h : c ∉ xs) :
    splitOnChar c (xs ++ c :: ys) = xs :: splitOnChar c ys := by
  induction xs with
  | nil =>
    simp only [List.nil_append, splitOnChar]
    cases hsp : splitOnChar c ys with
    | nil => exact absurd hsp (splitOnChar_ne_nil c ys)
    | cons hd tl => simp
  | cons a rest ih =>
    have hac : ¬a = c := fun he => h (he ▸ List.mem_cons_self a rest)
    have hrest : c ∉ rest := fun hm => h (List.mem_cons_of_mem _ hm)
    rw [List.cons_append, splitOnChar, ih hrest]
    simp [hac]

/-! Digit-character lemmas. -/

theorem isDigit_digitChar {d : ℕ} (h : d < 10) : isDigitCh (digitChar d) = true := by
  interval_cases d <;> decide

theorem ne_of_isDigit {c c' : Char} (h : isDigitCh c = true) (h' : isDigitCh c' = false)
    : ¬c = c' := by
  intro he
  rw [he, h'] at h
  cases h

theorem not_mem_of_all_digit {s : PyStr} (h : ∀ c ∈ s, isDigitCh c = true) {c : Char}
    (hc : isDigitCh c = false) : c ∉ s := by
  intro hm
  have := h c hm
  rw [hc] at this
  cases this

theorem digitsLE_all_lt (fuel : ℕ) : ∀ n, ∀ x ∈ digitsLE fuel n, x < 10 := by
  induction fuel with
  | zero => intro n x hx; cases hx
  | succ fuel ih =>
    intro n x hx
    simp only [digitsLE] at hx
    split at hx
    · cases hx
    · rcases List.mem_cons.mp hx with rfl | hx
      · exact Nat.mod_lt _ (by norm_num)
      · exact ih _ x hx

theorem natChars_all_digit (m : ℕ) : ∀ c ∈ natChars m, isDigitCh c = true := by
  intro c hc
  simp only [natChars, List.mem_reverse, List.mem_map] at hc
  obtain ⟨d, hd, rfl⟩ := hc
  exact isDigit_digitChar (digitsLE_all_lt m m d hd)

theorem natCharsZ_all_digit (m : ℕ) : ∀ c ∈ natCharsZ m, isDigitCh c = true := by
  intro c hc
  unfold natCharsZ at hc
  split at hc
  · rw [List.mem_singleton] at hc
    subst hc
    decide
  · exact natChars_all_digit m c hc

/-! Digit-string length and value lemmas. -/

theorem digitsLE_val : ∀ fuel n, n ≤ fuel → Nat.ofDigits 10 (digitsLE fuel n) = n := by
  intro fuel
  induction fuel with
  | zero => intro n h; interval_cases n; rfl
  | succ fuel ih =>
    intro n h
    rw [digitsLE]
    split
    · rename_i h0
      rw [h0]
      rfl
    · rename_i h0
      rw [Nat.ofDigits_cons]
      have hle : n / 10 ≤ fuel := by
        have : n / 10 < n := Nat.div_lt_self (by omega) (by norm_num)
        omega
      rw [ih (n / 10) hle]
      omega

theorem digitsLE_length : ∀ fuel n j, n ≤ fuel → 10 ^ j ≤ n → n < 10 ^ (j + 1) →
    (digitsLE fuel n).length = j + 1 := by
  intro fuel
  induction fuel with
  | zero =>
    intro n j h hl hr
    have : 1 ≤ 10 ^ j := Nat.one_le_pow _ _ (by norm_num)
    omega
  | succ fuel ih =>
    intro n j h hl hr
    have hn0 : n ≠ 0 := by
      have : 1 ≤ 10 ^ j := Nat.one_le_pow _ _ (by norm_num)
      omega
    rw [digitsLE, if_neg hn0, List.length_cons]
    cases j with
    | zero =>
      have : n < 10 := by simpa using hr
      have hz : n / 10 = 0 := Nat.div_eq_of_lt this
      rw [hz]
      cases fuel <;> rfl
    | succ j' =>
      have hle : n / 10 ≤ fuel := by
        have : n / 10 < n := Nat.div_lt_self (by omega) (by norm_num)
        omega
      have hl' : 10 ^ j' ≤ n / 10 := by
        rw [Nat.le_div_iff_mul_le (by norm_num)]
        calc 10 ^ j' * 10 = 10 ^ (j' + 1) := by ring
          _ ≤ n := hl
      have hr' : n / 10 < 10 ^ (j' + 1) := by
        rw [Nat.div_lt_iff_lt_mul (by norm_num)]
        calc n < 10 ^ (j' + 1 + 1) := hr
          _ = 10 ^ (j' + 1) * 10 := by ring
      rw [ih (n / 10) j' hle hl' hr']

theorem digitChar_toNat {d : ℕ} (h : d < 10) : (digitChar d).toNat = 48 + d := by
  interval_cases d <;> decide

theorem digitsToNat_shift (t : List Char) :
    ∀ a : ℕ, t.foldl (fun x c => 10 * x + (c.toNat - 48)) a =
      a * 10 ^ t.length + digitsToNat t := by
  induction t with
  | nil => intro a; simp [digitsToNat]
  | cons c t' ih =>
    intro a
    show t'.foldl _ (10 * a + (c.toNat - 48)) = _
    rw [ih (10 * a + (c.toNat - 48))]
    have h2 : digitsToNat (c :: t') = (c.toNat - 48) * 10 ^ t'.length + digitsToNat t' := by
      show t'.foldl _ (10 * 0 + (c.toNat - 48)) = _
      rw [ih (10 * 0 + (c.toNat - 48))]
      ring_nf
    rw [h2, List.length_cons]
    ring

theorem digitsToNat_append (s t : List Char) :
    digitsToNat (s ++ t) = digitsToNat s * 10 ^ t.length + digitsToNat t := by
  show (s ++ t).foldl _ 0 = _
  rw [List.foldl_append]
  exact digitsToNat_shift t _

theorem digitsToNat_replicate_zero (n : ℕ) :
    digitsToNat (List.replicate n '0') = 0 := by
  induction n with
  | zero => rfl
  | succ n ih =>
    rw [List.replicate_succ']
    rw [digitsToNat_append, ih]
    rfl

theorem digitsToNat_reverse_map (L : List ℕ) (h : ∀ d ∈ L, d < 10) :
    digitsToNat ((L.map digitChar).reverse) = Nat.ofDigits 10 L := by
  induction L with
  | nil => rfl
  | cons d rest ih =>
    rw [List.map_cons, List.reverse_cons, digitsToNat_append, Nat.ofDigits_cons]
    have hd : d < 10 := h d (List.mem_cons_self _ _)
    have hrest : ∀ x ∈ rest, x < 10 := fun x hx => h x (List.mem_cons_of_mem _ hx)
    rw [ih hrest]
    have : digitsToNat [digitChar d] = d := by
      show 10 * 0 + ((digitChar d).toNat - 48) = d
      rw [digitChar_toNat hd]
      omega
    rw [this]
    simp
    ring

theorem digitsToNat_natChars (m : ℕ) : digitsToNat (natChars m) = m := by
  unfold natChars
  rw [digitsToNat_reverse_map _ (digitsLE_all_lt m m), digitsLE_val m m le_rfl]

theorem digitsToNat_natCharsZ (m : ℕ) : digitsToNat (natCharsZ m) = m := by
  unfold natCharsZ
  split
  · rename_i h
    rw [h]
    rfl
  · exact digitsToNat_natChars m

theorem natChars_length {M n : ℕ} (h1 : 10 ^ (n - 1) ≤ M) (h2 : M < 10 ^ n)
    (hn : 1 ≤ n) : (natChars M).length = n := by
  unfold natChars
  rw [List.length_reverse, List.length_map]
  have := digitsLE_length M M (n - 1) le_rfl h1 (by rwa [Nat.sub_add_cancel hn])
  omega

theorem digitsToNat_cons_zero (t : List Char) : digitsToNat ('0' :: t) = digitsToNat t := by
  show t.foldl _ (10 * 0 + ((48 : ℕ) - 48)) = _
  rfl

/-! Lowercasing fixes the character classes the formatter emits. -/

theorem charLower_digit {c : Char} (h : isDigitCh c = true) : charLower c = c := by
  have h9 : c ≤ '9' := by
    have := (Bool.and_eq_true _ _).mp h
    exact of_decide_eq_true this.2
  unfold charLower
  rw [if_neg]
  rintro ⟨h1, _⟩
  exact absurd (le_trans h1 h9) (by decide)

theorem toLowerL_eq_self {s : PyStr} (h : ∀ c ∈ s, charLower c = c) : toLowerL s = s := by
  induction s with
  | nil => rfl
  | cons a rest ih =>
    show charLower a :: toLowerL rest = a :: rest
    rw [h a (List.mem_cons_self _ _), ih fun c hc => h c (List.mem_cons_of_mem _ hc)]

theorem charLower_fixed_of_digit_or (c : Char)
    (h : isDigitCh c = true ∨ c = '.' ∨ c = '-' ∨ c = '+' ∨ c = 'e') :
    charLower c = c := by
  rcases h with h | rfl | rfl | rfl | rfl
  · exact charLower_digit h
  all_goals decide

/-- Evaluation of `pyIntLit` on an all-digit run with an optional sign
(first character of the run must not itself look like a sign). -/
theorem intCore_digits {r : PyStr} (hr : r ≠ []) (hd : ∀ c ∈ r, isDigitCh c = true) :
    intCore r = .ok (digitsToNat r : ℤ) := by
  unfold intCore
  rw [if_pos ⟨hr, List.all_eq_true.mpr fun c hc => hd c hc⟩]

theorem pyIntLit_cons_digit {c : Char} {r : PyStr} (hc : isDigitCh c = true)
    (hd : ∀ x ∈ r, isDigitCh x = true) :
    pyIntLit (c :: r) = .ok (digitsToNat (c :: r) : ℤ) := by
  show (if c = '+' then _ else if c = '-' then _ else intCore (c :: r)) = _
  rw [if_neg (ne_of_isDigit hc (by decide)), if_neg (ne_of_isDigit hc (by decide))]
  exact intCore_digits (by simp) fun x hx => by
    rcases List.mem_cons.mp hx with rfl | hx
    · exact hc
    · exact hd x hx

theorem natChars_ne_nil {m : ℕ} (h : 1 ≤ m) : natChars m ≠ [] := by
  unfold natChars
  cases m with
  | zero => omega
  | succ m' =>
    rw [digitsLE, if_neg (by omega)]
    simp

theorem natCharsZ_ne_nil (m : ℕ) : natCharsZ m ≠ [] := by
  unfold natCharsZ
  split
  · simp
  · rename_i h
    exact natChars_ne_nil (by omega)

theorem pyIntLit_expChars (k : ℤ) : pyIntLit (expChars k) = .ok k := by
  set pad := (if k.natAbs < 10 then '0' :: natCharsZ k.natAbs else natCharsZ k.natAbs)
    with hpadd
  have hval : digitsToNat pad = k.natAbs := by
    rw [hpadd]
    split
    · rw [digitsToNat_cons_zero, digitsToNat_natCharsZ]
    · rw [digitsToNat_natCharsZ]
  have hdig : ∀ c ∈ pad, isDigitCh c = true := by
    intro c hc
    rw [hpadd] at hc
    split at hc
    · rcases List.mem_cons.mp hc with rfl | hc
      · decide
      · exact natCharsZ_all_digit _ c hc
    · exact natCharsZ_all_digit _ c hc
  have hne : pad ≠ [] := by
    rw [hpadd]
    split
    · simp
    · exact natCharsZ_ne_nil _
  have hcore : intCore pad = .ok (k.natAbs : ℤ) := by
    rw [intCore_digits hne hdig, hval]
  unfold expChars
  rw [← hpadd]
  by_cases hk : k < 0
  · rw [if_pos hk]
    show (if ('-' : Char) = '+' then intCore pad
      else if ('-' : Char) = '-' then do
        let v ← intCore pad
        Except.ok (-v)
      else intCore ('-' :: pad)) = Except.ok k
    rw [if_neg (by decide), if_pos rfl, hcore]
    show Except.ok (-(k.natAbs : ℤ)) = Except.ok k
    congr 1
    omega
  · rw [if_neg hk]
    show (if ('+' : Char) = '+' then intCore pad
      else if ('+' : Char) = '-' then do
        let v ← intCore pad
        Except.ok (-v)
      else intCore ('+' :: pad)) = Except.ok k
    rw [if_pos rfl, hcore]
    congr 1
    omega

theorem mantVal_fixed {ip fp : PyStr} (hip : ∀ c ∈ ip, isDigitCh c = true)
    (hfp : ∀ c ∈ fp, isDigitCh c = true) (hne : ip ≠ [] ∨ fp ≠ []) :
    mantVal (ip ++ '.' :: fp) =
      .ok ((digitsToNat ip : ℚ) + (digitsToNat fp : ℚ) / (10 : ℚ) ^ fp.length) := by
  unfold mantVal
  have hdotip : '.' ∉ ip := not_mem_of_all_digit hip (by decide)
  have hdotfp : '.' ∉ fp := not_mem_of_all_digit hfp (by decide)
  rw [splitOnChar_append_cons '.' fp hdotip, splitOnChar_of_not_mem hdotfp]
  show (if (ip ≠ [] ∨ fp ≠ []) ∧ ip.all isDigitCh ∧ fp.all isDigitCh then
      Except.ok (qAdd (digitsToNat ip : ℚ)
        (qDiv (digitsToNat fp : ℚ) (qpow10 (fp.length : ℤ))))
    else Except.error Err.valueError) = _
  rw [if_pos ⟨hne, List.all_eq_true.mpr fun c hc => hip c hc,
    List.all_eq_true.mpr fun c hc => hfp c hc⟩]
  congr 1
  rw [qAdd_eq, qDiv_eq, qpow10_eq, zpow_natCast]

theorem pyFloatBody_fixed {ip fp : PyStr} (hip : ∀ c ∈ ip, isDigitCh c = true)
    (hfp : ∀ c ∈ fp, isDigitCh c = true) (hne : ip ≠ [] ∨ fp ≠ []) :
    pyFloatBody (ip ++ '.' :: fp) =
      .ok ((digitsToNat ip : ℚ) + (digitsToNat fp : ℚ) / (10 : ℚ) ^ fp.length) := by
  unfold pyFloatBody
  have he : 'e' ∉ ip ++ '.' :: fp := by
    intro hm
    rcases List.mem_append.mp hm with hm | hm
    · exact not_mem_of_all_digit hip (by decide) hm
    · rcases List.mem_cons.mp hm with he | hm
      · cases he
      · exact not_mem_of_all_digit hfp (by decide) hm
  rw [splitOnChar_of_not_mem he]
  show mantVal (ip ++ '.' :: fp) = _
  exact mantVal_fixed hip hfp hne

theorem pyFloatLit_fixed {sgn ip fp : PyStr} (hsgn : sgn = [] ∨ sgn = ['-'])
    (hip : ∀ c ∈ ip, isDigitCh c = true) (hfp : ∀ c ∈ fp, isDigitCh c = true)
    (hne : ip ≠ [] ∨ fp ≠ []) :
    pyFloatLit (sgn ++ ip ++ '.' :: fp) =
      .ok ((if sgn = [] then (1 : ℚ) else -1) *
        ((digitsToNat ip : ℚ) + (digitsToNat fp : ℚ) / (10 : ℚ) ^ fp.length)) := by
  have hbody := pyFloatBody_fixed hip hfp hne
  have hfixmid : ∀ c ∈ ip ++ '.' :: fp, charLower c = c := by
    intro c hc
    apply charLower_fixed_of_digit_or
    rcases List.mem_append.mp hc with hc | hc
    · exact Or.inl (hip c hc)
    · rcases List.mem_cons.mp hc with rfl | hc
      · right
        left
        rfl
      · exact Or.inl (hfp c hc)
  rcases hsgn with rfl | rfl
  · rw [if_pos rfl, one_mul, List.nil_append]
    have hfix : toLowerL (ip ++ '.' :: fp) = ip ++ '.' :: fp := toLowerL_eq_self hfixmid
    unfold pyFloatLit
    rw [hfix]
    cases ip with
    | nil =>
      show (if ('.' : Char) = '+' then _
        else if ('.' : Char) = '-' then _
        else pyFloatBody ('.' :: fp)) = _
      rw [if_neg (by decide), if_neg (by decide)]
      exact hbody
    | cons c0 ip' =>
      have hc0 : isDigitCh c0 = true := hip c0 (List.mem_cons_self _ _)
      show (if c0 = '+' then _
        else if c0 = '-' then _
        else pyFloatBody (c0 :: (ip' ++ '.' :: fp))) = _
      rw [if_neg (ne_of_isDigit hc0 (by decide)), if_neg (ne_of_isDigit hc0 (by decide))]
      exact hbody
  · rw [if_neg (by simp)]
    have hfix : toLowerL ('-' :: (ip ++ '.' :: fp)) = '-' :: (ip ++ '.' :: fp) := by
      apply toLowerL_eq_self
      intro c hc
      rcases List.mem_cons.mp hc with rfl | hc
      · decide
      · exact hfixmid c hc
    unfold pyFloatLit
    rw [show (['-'] ++ ip ++ '.' :: fp : PyStr) = '-' :: (ip ++ '.' :: fp) from rfl, hfix]
    show (if ('-' : Char) = '+' then _
      else if ('-' : Char) = '-' then do
        let v ← pyFloatBody (ip ++ '.' :: fp)
        Except.ok (-v)
      else _) = _
    rw [if_neg (by decide), if_pos rfl, hbody]
    show Except.ok (-((digitsToNat ip : ℚ) + (digitsToNat fp : ℚ) / (10 : ℚ) ^ fp.length)) = _
    congr 1
    ring

/-! Trailing-zero stripping lemmas. -/

theorem dropWhile_append_cons (p : Char → Bool) (l₁ : PyStr) {a : Char} (l₂ : PyStr)
    (h : p a = false) :
    List.dropWhile p (l₁ ++ a :: l₂) = List.dropWhile p l₁ ++ a :: l₂ := by
  induction l₁ with
  | nil => simp [List.dropWhile_cons, h]
  | cons b r ih =>
    rw [List.cons_append, List.dropWhile_cons, List.dropWhile_cons]
    split <;> simp [ih]

theorem takeWhile_append_cons (p : Char → Bool) (l₁ : PyStr) {a : Char} (l₂ : PyStr)
    (h : p a = false) :
    List.takeWhile p (l₁ ++ a :: l₂) = List.takeWhile p l₁ := by
  induction l₁ with
  | nil => simp [List.takeWhile_cons, h]
  | cons b r ih =>
    rw [List.cons_append, List.takeWhile_cons, List.takeWhile_cons]
    split <;> simp [ih]

theorem dropWhile_replicate_append (p : Char → Bool) {a : Char} (n : ℕ) (l : PyStr)
    (h : p a = true) :
    List.dropWhile p (List.replicate n a ++ l) = List.dropWhile p l := by
  induction n with
  | zero => simp
  | succ n ih => rw [List.replicate_succ, List.cons_append, List.dropWhile_cons, if_pos h, ih]

theorem takeWhile_replicate_append (p : Char → Bool) {a : Char} (n : ℕ) (l : PyStr)
    (h : p a = true) :
    List.takeWhile p (List.replicate n a ++ l) = List.replicate n a ++ List.takeWhile p l := by
  induction n with
  | zero => simp
  | succ n ih =>
    rw [List.replicate_succ, List.cons_append, List.takeWhile_cons, if_pos h, ih]
    rfl

theorem takeWhile_append_of_dropWhile_ne (p : Char → Bool) (l₁ l₂ : PyStr)
    (h : List.dropWhile p l₁ ≠ []) :
    List.takeWhile p (l₁ ++ l₂) = List.takeWhile p l₁ := by
  induction l₁ with
  | nil => exact absurd rfl h
  | cons b r ih =>
    rw [List.cons_append, List.takeWhile_cons, List.takeWhile_cons]
    rw [List.dropWhile_cons] at h
    by_cases hb : p b = true
    · rw [if_pos hb] at h
      simp only [hb, if_true]
      rw [ih h]
    · simp only [hb, if_false]
      rw [if_neg (by simpa using hb), if_neg (by simpa using hb)]

theorem rstrip0_append_cons {A : PyStr} {c : Char} {B : PyStr} (h : ¬c = '0') :
    rstrip0 (A ++ c :: B) = A ++ c :: rstrip0 B := by
  unfold rstrip0
  rw [List.reverse_append, List.reverse_cons, List.append_assoc]
  rw [show ([c] ++ A.reverse : PyStr) = c :: A.reverse from rfl]
  rw [dropWhile_append_cons _ _ _ (by simpa using h)]
  rw [List.reverse_append, List.reverse_cons]
  simp

theorem rstrip0_append_zeros (A : PyStr) (n : ℕ) :
    rstrip0 (A ++ List.replicate n '0') = rstrip0 A := by
  unfold rstrip0
  rw [List.reverse_append, List.reverse_replicate]
  rw [dropWhile_replicate_append _ _ _ (by decide)]

theorem trailZeroCount_append_zeros (A : PyStr) (n : ℕ) :
    trailZeroCount (A ++ List.replicate n '0') = trailZeroCount A + n := by
  unfold trailZeroCount
  rw [List.reverse_append, List.reverse_replicate]
  rw [takeWhile_replicate_append _ _ _ (by decide)]
  rw [List.length_append, List.length_replicate]
  ring

theorem trailZeroCount_append_of_strip_ne {A B : PyStr} (h : rstrip0 B ≠ []) :
    trailZeroCount (A ++ B) = trailZeroCount B := by
  unfold trailZeroCount
  rw [List.reverse_append]
  rw [takeWhile_append_of_dropWhile_ne]
  intro hcon
  apply h
  unfold rstrip0
  rw [hcon]
  rfl

theorem rstrip0_recombine (s : PyStr) :
    rstrip0 s ++ List.replicate (trailZeroCount s) '0' = s := by
  have htake : List.takeWhile (fun c => c = '0') s.reverse =
      List.replicate (trailZeroCount s) '0' := by
    apply List.eq_replicate.mpr
    refine ⟨rfl, ?_⟩
    intro b hb
    have := List.mem_takeWhile_imp hb
    simpa using this
  have := List.takeWhile_append_dropWhile (fun c => c = '0') s.reverse
  calc rstrip0 s ++ List.replicate (trailZeroCount s) '0'
      = (List.dropWhile (fun c => c = '0') s.reverse).reverse ++
        (List.takeWhile (fun c => c = '0') s.reverse).reverse := by
        rw [htake, List.reverse_replicate]
        rfl
    _ = (List.takeWhile (fun c => c = '0') s.reverse ++
        List.dropWhile (fun c => c = '0') s.reverse).reverse := by
        rw [List.reverse_append]
    _ = s := by rw [this, List.reverse_reverse]

theorem rstrip0_length (s : PyStr) :
    (rstrip0 s).length = s.length - trailZeroCount s := by
  have := congrArg List.length (rstrip0_recombine s)
  rw [List.length_append, List.length_replicate] at this
  omega

theorem trailZeroCount_le (s : PyStr) : trailZeroCount s ≤ s.length := by
  have hgen : ∀ l : PyStr, (List.takeWhile (fun c => c = '0') l).length ≤ l.length := by
    intro l
    induction l with
    | nil => simp
    | cons a r ih =>
      rw [List.takeWhile_cons]
      split
      · simpa using ih
      · simp
  unfold trailZeroCount
  calc (List.takeWhile (fun c => c = '0') s.reverse).length ≤ s.reverse.length := hgen _
    _ = s.length := List.length_reverse _

theorem rstrip0_eq_nil_iff (s : PyStr) : rstrip0 s = [] ↔ ∀ c ∈ s, c = '0' := by
  unfold rstrip0
  rw [List.reverse_eq_nil_iff, List.dropWhile_eq_nil_iff]
  constructor
  · intro h c hc
    have := h c (List.mem_reverse.mpr hc)
    simpa using this
  · intro h c hc
    simpa using h c (List.mem_reverse.mp hc)

theorem digitsToNat_all_zero {s : PyStr} (h : ∀ c ∈ s, c = '0') : digitsToNat s = 0 := by
  have : s = List.replicate s.length '0' := List.eq_replicate.mpr ⟨rfl, h⟩
  rw [this, digitsToNat_replicate_zero]

theorem rstrip0_ne_nil_of_value {s : PyStr} (h : 1 ≤ digitsToNat s) : rstrip0 s ≠ [] := by
  intro hcon
  have := digitsToNat_all_zero ((rstrip0_eq_nil_iff s).mp hcon)
  omega

/-! Digit strings of scaled numbers. -/

theorem digitsLE_fuel_irrel : ∀ f₁ f₂ n, n ≤ f₁ → n ≤ f₂ → digitsLE f₁ n = digitsLE f₂ n := by
  intro f₁
  induction f₁ with
  | zero =>
    intro f₂ n h1 h2
    interval_cases n
    cases f₂ <;> rfl
  | succ f₁ ih =>
    intro f₂ n h1 h2
    cases f₂ with
    | zero =>
      interval_cases n
      rfl
    | succ f₂ =>
      rw [digitsLE, digitsLE]
      split
      · rfl
      · rename_i h0
        congr 1
        have : n / 10 < n := Nat.div_lt_self (by omega) (by norm_num)
        exact ih f₂ (n / 10) (by omega) (by omega)

theorem digitsLE_zero (fuel : ℕ) : digitsLE fuel 0 = [] := by
  cases fuel <;> rfl

theorem natChars_mul_pow {m : ℕ} (hm : 1 ≤ m) (j : ℕ) :
    natChars (m * 10 ^ j) = natChars m ++ List.replicate j '0' := by
  have key : ∀ j fuel, m * 10 ^ j ≤ fuel →
      digitsLE fuel (m * 10 ^ j) = List.replicate j 0 ++ digitsLE m m := by
    intro j
    induction j with
    | zero =>
      intro fuel h
      simp only [pow_zero, mul_one] at h ⊢
      exact digitsLE_fuel_irrel fuel m m h le_rfl
    | succ j ih =>
      intro fuel h
      have hpos : 0 < m * 10 ^ (j + 1) := by positivity
      cases fuel with
      | zero => omega
      | succ fuel =>
        rw [digitsLE, if_neg (by omega)]
        have hmod : m * 10 ^ (j + 1) % 10 = 0 := by
          have : m * 10 ^ (j + 1) = m * 10 ^ j * 10 := by ring
          omega
        have hdiv : m * 10 ^ (j + 1) / 10 = m * 10 ^ j := by
          have : m * 10 ^ (j + 1) = m * 10 ^ j * 10 := by ring
          omega
        rw [hmod, hdiv]
        have hfuel' : m * 10 ^ j ≤ fuel := by
          have h1 : m * 10 ^ j * 10 = m * 10 ^ (j + 1) := by ring
          have h2 : 0 < m * 10 ^ j := by positivity
          omega
        rw [ih fuel hfuel']
        rfl
  unfold natChars
  rw [key j (m * 10 ^ j) le_rfl]
  rw [digitsLE_fuel_irrel m m m le_rfl le_rfl]
  rw [List.map_append, List.reverse_append]
  congr 1
  have : List.map digitChar (List.replicate j 0) = List.replicate j '0' := by
    rw [List.map_replicate]
    rfl
  rw [this, List.reverse_replicate]

theorem digitsLE_getLast : ∀ fuel n, 1 ≤ n → n ≤ fuel →
    ∃ (d : ℕ) (t : List ℕ), digitsLE fuel n = t ++ [d] ∧ 1 ≤ d ∧ d < 10 := by
  intro fuel
  induction fuel with
  | zero => intro n h1 h2; omega
  | succ fuel ih =>
    intro n h1 h2
    rw [digitsLE, if_neg (by omega)]
    by_cases hten : n < 10
    · have : n / 10 = 0 := Nat.div_eq_of_lt hten
      rw [this, digitsLE_zero]
      exact ⟨n % 10, [], rfl, by omega, Nat.mod_lt _ (by norm_num)⟩
    · have hd1 : 1 ≤ n / 10 := (Nat.one_le_div_iff (by norm_num)).mpr (by omega)
      have hdf : n / 10 ≤ fuel := by
        have : n / 10 < n := Nat.div_lt_self (by omega) (by norm_num)
        omega
      obtain ⟨d, t, heq, hd, hdlt⟩ := ih (n / 10) hd1 hdf
      exact ⟨d, n % 10 :: t, by rw [heq]; rfl, hd, hdlt⟩

/-- The head of the digit string of an `n`-digit number: a nonzero
digit followed by the remaining `n - 1` characters. -/
theorem natChars_head {M n : ℕ} (h1 : 10 ^ (n - 1) ≤ M) (h2 : M < 10 ^ n) (hn : 1 ≤ n) :
    ∃ (d : Char) (t : PyStr), natChars M = d :: t ∧ isDigitCh d = true ∧ ¬d = '0' ∧
      t.length = n - 1 ∧ (∀ c ∈ t, isDigitCh c = true) := by
  have hM1 : 1 ≤ M := le_trans (Nat.one_le_pow _ _ (by norm_num)) h1
  obtain ⟨d, t, heq, hd1, hd10⟩ := digitsLE_getLast M M hM1 le_rfl
  refine ⟨digitChar d, (t.map digitChar).reverse, ?_, isDigit_digitChar hd10, ?_, ?_, ?_⟩
  · unfold natChars
    rw [heq, List.map_append, List.reverse_append]
    rfl
  · interval_cases d <;> decide
  · have hlen := natChars_length h1 h2 hn
    unfold natChars at hlen
    rw [heq, List.length_reverse, List.length_map, List.length_append] at hlen
    rw [List.length_reverse, List.length_map]
    simp at hlen
    omega
  · intro c hc
    rw [List.mem_reverse, List.mem_map] at hc
    obtain ⟨x, hx, rfl⟩ := hc
    have : x < 10 := by
      have := digitsLE_all_lt M M x
      rw [heq] at this
      exact this (List.mem_append.mpr (Or.inl hx))
    exact isDigit_digitChar this

/-- Splitting a generic fixed-point string (`sign ++ digits . digits`)
at the decimal point. -/
theorem splitDot_fixed {sgn ds : PyStr} (hs : '.' ∉ sgn)
    (hd : ∀ c ∈ ds, isDigitCh c = true) (p : ℕ) (hp : p ≤ ds.length) :
    splitOnChar '.' (sgn ++ (ds.take (ds.length - p) ++ '.' :: ds.drop (ds.length - p))) =
      [sgn ++ ds.take (ds.length - p), ds.drop (ds.length - p)] ∧
    (ds.drop (ds.length - p)).length = p := by
  have hdot : isDigitCh '.' = false := by decide
  have htake : '.' ∉ ds.take (ds.length - p) :=
    fun hm => absurd (hd _ (List.mem_of_mem_take hm)) (by simp [hdot])
  have hdrop : '.' ∉ ds.drop (ds.length - p) :=
    fun hm => absurd (hd _ (List.mem_of_mem_drop hm)) (by simp [hdot])
  have hpre : '.' ∉ sgn ++ ds.take (ds.length - p) := by
    intro hm
    rcases List.mem_append.mp hm with hm | hm
    · exact hs hm
    · exact htake hm
  constructor
  · rw [← List.append_assoc]
    rw [splitOnChar_append_cons _ _ hpre, splitOnChar_of_not_mem hdrop]
  · rw [List.length_drop]
    omega

/-- The shape of `formatF` output at nonzero precision: it splits at the
decimal point into two pieces, and the fractional piece has exactly
`p` characters. -/
theorem formatF_shape (q : ℚ) (p : ℕ) (hp : p ≠ 0) :
    ∃ ip fp : PyStr, splitOnChar '.' (formatF q p) = [ip, fp] ∧ fp.length = p := by
  simp only [formatF]
  rw [if_neg hp]
  set N := (roundHE (qMul |q| (qpow10 (p : ℤ)))).toNat with hN
  set ds0 := natCharsZ N with hds0
  set ds := List.replicate (p + 1 - ds0.length) '0' ++ ds0 with hds
  have hd : ∀ c ∈ ds, isDigitCh c = true := by
    intro c hc
    rcases List.mem_append.mp hc with hc | hc
    · rw [List.eq_of_mem_replicate hc]
      decide
    · exact natCharsZ_all_digit N c hc
  have hlen : p ≤ ds.length := by
    rw [hds, List.length_append, List.length_replicate]
    omega
  have hsgn : '.' ∉ (if q < 0 then ['-'] else ([] : PyStr)) := by split <;> decide
  rcases splitDot_fixed hsgn hd p hlen with ⟨h1, h2⟩
  exact ⟨_, _, h1, h2⟩

/-! Digit strings and their numeric values: round-tripping. -/

theorem isDigitCh_toNat_bounds {c : Char} (h : isDigitCh c = true) :
    48 ≤ c.toNat ∧ c.toNat ≤ 57 := by
  unfold isDigitCh at h
  rcases (Bool.and_eq_true _ _).mp h with ⟨h1, h2⟩
  have h1' : '0' ≤ c := of_decide_eq_true h1
  have h2' : c ≤ '9' := of_decide_eq_true h2
  exact ⟨h1', h2'⟩

theorem char_eq_digitChar {c : Char} (h : isDigitCh c = true) :
    c = digitChar (c.toNat - 48) := by
  obtain ⟨hl, hr⟩ := isDigitCh_toNat_bounds h
  unfold digitChar
  rw [show 48 + (c.toNat - 48) = c.toNat by omega]
  exact (Char.ofNat_toNat c).symm

theorem natChars_zero : natChars 0 = [] := rfl

theorem natChars_succ_div {m : ℕ} (hm : 1 ≤ m) :
    natChars m = natChars (m / 10) ++ [digitChar (m % 10)] := by
  unfold natChars
  cases m with
  | zero => omega
  | succ m' =>
    rw [digitsLE, if_neg (by omega)]
    have hlt : (m' + 1) / 10 < m' + 1 := Nat.div_lt_self (by omega) (by norm_num)
    rw [digitsLE_fuel_irrel m' ((m' + 1) / 10) ((m' + 1) / 10) (by omega) le_rfl]
    rw [List.map_cons, List.reverse_cons]

theorem natChars_tenfold {m d : ℕ} (hm : 1 ≤ m) (hd : d < 10) :
    natChars (10 * m + d) = natChars m ++ [digitChar d] := by
  rw [natChars_succ_div (by omega)]
  rw [show (10 * m + d) / 10 = m by omega, show (10 * m + d) % 10 = d by omega]

theorem natChars_digit {d : ℕ} (h1 : 1 ≤ d) (h2 : d < 10) :
    natChars d = [digitChar d] := by
  rw [natChars_succ_div h1]
  rw [show d / 10 = 0 by omega, show d % 10 = d by omega, natChars_zero, List.nil_append]

theorem digitsToNat_single (c : Char) : digitsToNat [c] = c.toNat - 48 := by
  show 10 * 0 + (c.toNat - 48) = _
  omega

theorem one_le_digitsToNat_head {d : Char} (t : PyStr) (hd : isDigitCh d = true)
    (hd0 : ¬d = '0') : 1 ≤ digitsToNat (d :: t) := by
  have hsplit : digitsToNat (d :: t) = (d.toNat - 48) * 10 ^ t.length + digitsToNat t := by
    rw [show (d :: t : PyStr) = [d] ++ t from rfl, digitsToNat_append, digitsToNat_single]
  obtain ⟨hl, hr⟩ := isDigitCh_toNat_bounds hd
  have h48 : d.toNat ≠ 48 := by
    intro hcon
    apply hd0
    rw [char_eq_digitChar hd, hcon]
    rfl
  have hpow : 1 ≤ 10 ^ t.length := Nat.one_le_pow _ _ (by norm_num)
  have : 1 ≤ (d.toNat - 48) * 10 ^ t.length := Nat.mul_pos (by omega) (by omega)
  omega

/-- A digit string with a nonzero leading digit is the canonical digit
rendering of its numeric value. -/
theorem natChars_digitsToNat {d : Char} {t : PyStr} (hd : isDigitCh d = true)
    (hd0 : ¬d = '0') (ht : ∀ c ∈ t, isDigitCh c = true) :
    natChars (digitsToNat (d :: t)) = d :: t := by
  induction t using List.reverseRecOn with
  | nil =>
    obtain ⟨hl, hr⟩ := isDigitCh_toNat_bounds hd
    have h48 : d.toNat ≠ 48 := by
      intro hcon
      apply hd0
      rw [char_eq_digitChar hd, hcon]
      rfl
    rw [digitsToNat_single, natChars_digit (by omega) (by omega), ← char_eq_digitChar hd]
  | append_singleton u c ih =>
    have hu : ∀ x ∈ u, isDigitCh x = true :=
      fun x hx => ht x (List.mem_append.mpr (Or.inl hx))
    have hc : isDigitCh c = true :=
      ht c (List.mem_append.mpr (Or.inr (List.mem_singleton.mpr rfl)))
    obtain ⟨hcl, hcr⟩ := isDigitCh_toNat_bounds hc
    rw [show (d :: (u ++ [c]) : PyStr) = (d :: u) ++ [c] from rfl, digitsToNat_append,
      digitsToNat_single, List.length_singleton, pow_one]
    have hm1 : 1 ≤ digitsToNat (d :: u) := one_le_digitsToNat_head u hd hd0
    rw [show digitsToNat (d :: u) * 10 + (c.toNat - 48) =
      10 * digitsToNat (d :: u) + (c.toNat - 48) by ring]
    rw [natChars_tenfold hm1 (by omega), ih hu, ← char_eq_digitChar hc]

theorem natChars_length_bounds : ∀ m : ℕ, 1 ≤ m →
    10 ^ ((natChars m).length - 1) ≤ m ∧ m < 10 ^ (natChars m).length := by
  intro m
  induction m using Nat.strong_induction_on with
  | _ m ih =>
    intro hm
    by_cases h10 : m < 10
    · rw [natChars_digit hm h10]
      rw [List.length_singleton]
      constructor
      · simpa using hm
      · simpa using h10
    · have hdiv1 : 1 ≤ m / 10 := (Nat.one_le_div_iff (by norm_num)).mpr (by omega)
      have hlt : m / 10 < m := Nat.div_lt_self (by omega) (by norm_num)
      obtain ⟨h1, h2⟩ := ih (m / 10) hlt hdiv1
      rw [natChars_succ_div hm, List.length_append, List.length_singleton]
      set L := (natChars (m / 10)).length with hL
      have hL1 : 1 ≤ L := by
        rw [hL]
        cases hne : natChars (m / 10) with
        | nil => exact absurd hne (natChars_ne_nil hdiv1)
        | cons a b => simp
      constructor
      · rw [show L + 1 - 1 = (L - 1) + 1 by omega, pow_succ]
        have hmul := Nat.mul_le_mul_right 10 h1
        have hdm : m / 10 * 10 ≤ m := Nat.div_mul_le_self m 10
        omega
      · rw [pow_succ]
        have hmul := Nat.mul_le_mul_right 10 (show m / 10 + 1 ≤ 10 ^ L by omega)
        omega

theorem digitsToNat_head_bounds {d : Char} {t : PyStr} (hd : isDigitCh d = true)
    (hd0 : ¬d = '0') (ht : ∀ c ∈ t, isDigitCh c = true) :
    10 ^ t.length ≤ digitsToNat (d :: t) ∧ digitsToNat (d :: t) < 10 ^ (t.length + 1) := by
  have hrt := natChars_digitsToNat hd hd0 ht
  have h1 : 1 ≤ digitsToNat (d :: t) := one_le_digitsToNat_head t hd hd0
  obtain ⟨hb1, hb2⟩ := natChars_length_bounds _ h1
  rw [hrt, List.length_cons] at hb1 hb2
  rw [Nat.add_sub_cancel] at hb1
  exact ⟨hb1, hb2⟩

/-- Splitting a digit string into its leading zeros and its significant
part. -/
theorem digit_string_strip : ∀ w : PyStr, (∀ c ∈ w, isDigitCh c = true) →
    ∃ j sd, w = List.replicate j '0' ++ sd ∧ digitsToNat sd = digitsToNat w ∧
      (∀ c ∈ sd, isDigitCh c = true) ∧
      (sd = [] ∨ ∃ d t, sd = d :: t ∧ ¬d = '0') := by
  intro w
  induction w with
  | nil => exact fun _ => ⟨0, [], rfl, rfl, by simp, Or.inl rfl⟩
  | cons a r ih =>
    intro hw
    have hr : ∀ c ∈ r, isDigitCh c = true := fun c hc => hw c (List.mem_cons_of_mem _ hc)
    by_cases ha : a = '0'
    · obtain ⟨j, sd, hsd, hval, hdig, hhead⟩ := ih hr
      subst ha
      refine ⟨j + 1, sd, ?_, ?_, hdig, hhead⟩
      · rw [List.replicate_succ, List.cons_append, hsd]
      · rw [hval, digitsToNat_cons_zero]
    · exact ⟨0, a :: r, rfl, rfl, hw, Or.inr ⟨a, r, rfl, ha⟩⟩

theorem trailZeroCount_cons_of_ne {d : Char} (rest : PyStr) (hd0 : ¬d = '0') :
    trailZeroCount (d :: rest) = trailZeroCount rest := by
  unfold trailZeroCount
  rw [List.reverse_cons]
  by_cases h : List.dropWhile (fun c => c = '0') rest.reverse = []
  · have hall : ∀ c ∈ rest.reverse, c = '0' := by
      intro c hc
      have := List.dropWhile_eq_nil_iff.mp h c hc
      simpa using this
    have hrep : rest.reverse = List.replicate rest.reverse.length '0' :=
      List.eq_replicate.mpr ⟨rfl, hall⟩
    rw [hrep, takeWhile_replicate_append _ _ _ (by decide)]
    rw [show List.takeWhile (fun c => decide (c = '0')) [d] = [] by
      rw [List.takeWhile_cons, if_neg (by simpa using hd0)]]
    rw [List.append_nil, List.takeWhile_replicate]
    simp
  · rw [takeWhile_append_of_dropWhile_ne _ _ _ h]

/-! Exactness of `sciDigits` on exactly-representable inputs. -/

theorem decExp_unique {q : ℚ} (hq : q ≠ 0) {k : ℤ}
    (h1 : (10 : ℚ) ^ k ≤ |q|) (h2 : |q| < (10 : ℚ) ^ (k + 1)) : decExp q = k := by
  obtain ⟨hd1, hd2⟩ := decExp_spec q hq
  by_contra hne
  rcases lt_or_gt_of_ne hne with hlt | hgt
  · have : (10 : ℚ) ^ (decExp q + 1) ≤ (10 : ℚ) ^ k :=
      zpow_le_zpow_right₀ (by norm_num) (by omega)
    linarith
  · have : (10 : ℚ) ^ (k + 1) ≤ (10 : ℚ) ^ (decExp q) :=
      zpow_le_zpow_right₀ (by norm_num) (by omega)
    linarith

/-- `sciDigits` is exact on a value that is an `n`-digit mantissa times
a power of ten: no rounding occurs and the exponent is not bumped. -/
theorem sciDigits_exact {q : ℚ} {N n : ℕ} {e : ℤ}
    (hq : q ≠ 0) (habs : |q| = (N : ℚ) * (10 : ℚ) ^ e)
    (h1 : 10 ^ (n - 1) ≤ N) (h2 : N < 10 ^ n) (hn : 1 ≤ n) :
    sciDigits q n = (N, (n : ℤ) - 1 + e) := by
  have h100 : (10 : ℚ) ≠ 0 := by norm_num
  have hcast1 : ((10 ^ (n - 1) : ℕ) : ℚ) = (10 : ℚ) ^ ((n : ℤ) - 1) := by
    rw [show (n : ℤ) - 1 = ((n - 1 : ℕ) : ℤ) by omega, zpow_natCast]
    push_cast
    ring
  have hcast2 : ((10 ^ n : ℕ) : ℚ) = (10 : ℚ) ^ (n : ℤ) := by
    rw [zpow_natCast]
    push_cast
    ring
  have hdec : decExp q = (n : ℤ) - 1 + e := by
    apply decExp_unique hq
    · rw [habs, zpow_add₀ h100]
      apply mul_le_mul_of_nonneg_right _ (le_of_lt (zpow_ten_pos e))
      rw [← hcast1]
      exact_mod_cast h1
    · rw [habs, show (n : ℤ) - 1 + e + 1 = (n : ℤ) + e by ring, zpow_add₀ h100]
      apply mul_lt_mul_of_pos_right _ (zpow_ten_pos e)
      rw [← hcast2]
      exact_mod_cast h2
  have hX : qMul |q| (qpow10 ((n : ℤ) - 1 - decExp q)) = ((N : ℤ) : ℚ) := by
    rw [qMul_eq, qpow10_eq, habs, hdec, mul_assoc, ← zpow_add₀ h100]
    rw [show e + ((n : ℤ) - 1 - ((n : ℤ) - 1 + e)) = 0 by ring, zpow_zero, mul_one]
    push_cast
    ring
  simp only [sciDigits]
  rw [hX, roundHE_intCast, Int.toNat_natCast]
  rw [if_neg (by omega), hdec]

/-! Evaluation of the parser on well-formed constructed strings. -/

theorem filter_not_dash_digits {s : PyStr} (h : ∀ c ∈ s, isDigitCh c = true) :
    s.filter (fun c => ¬c = '-') = s := by
  apply List.filter_eq_self.mpr
  intro c hc
  simpa using ne_of_isDigit (h c hc) (by decide)

/-- Evaluation of the parser's scientific branch on a well-formed
string `sign ++ d.body e ex`: the sig-fig count is the digit count of
`d.body` and the lsf subtracts the fractional length from the parsed
exponent. -/
theorem parse_sci_shape (fuel : ℕ) {sgn : PyStr} (hsgn : sgn = [] ∨ sgn = ['-'])
    {d : Char} (hd : isDigitCh d = true) {body : PyStr}
    (hbody : ∀ c ∈ body, isDigitCh c = true)
    {ex : PyStr} {k : ℤ} (hex : pyIntLit ex = .ok k)
    (hexfix : ∀ c ∈ ex, charLower c = c) (hexe : 'e' ∉ ex) :
    findSigfigsLsfF (fuel + 1) (sgn ++ d :: '.' :: (body ++ 'e' :: ex)) =
      .ok (1 + body.length, -(body.length : ℤ) + k) := by
  have hfix : toLowerL (sgn ++ d :: '.' :: (body ++ 'e' :: ex)) =
      sgn ++ d :: '.' :: (body ++ 'e' :: ex) := by
    apply toLowerL_eq_self
    intro c hc
    rcases List.mem_append.mp hc with hc | hc
    · rcases hsgn with rfl | rfl
      · cases hc
      · rw [List.mem_singleton] at hc
        subst hc
        decide
    · rcases List.mem_cons.mp hc with rfl | hc
      · exact charLower_digit hd
      · rcases List.mem_cons.mp hc with rfl | hc
        · decide
        · rcases List.mem_append.mp hc with hc | hc
          · exact charLower_digit (hbody c hc)
          · rcases List.mem_cons.mp hc with rfl | hc
            · decide
            · exact hexfix c hc
  have hnoe : 'e' ∉ sgn ++ d :: '.' :: body := by
    intro hm
    rcases List.mem_append.mp hm with hm | hm
    · rcases hsgn with rfl | rfl
      · cases hm
      · rw [List.mem_singleton] at hm
        cases hm
    · rcases List.mem_cons.mp hm with he | hm
      · rw [← he] at hd
        cases hd
      · rcases List.mem_cons.mp hm with he | hm
        · cases he
        · exact absurd (hbody _ hm) (by decide)
  have hmem : 'e' ∈ sgn ++ d :: '.' :: (body ++ 'e' :: ex) := by
    apply List.mem_append.mpr
    right
    apply List.mem_cons_of_mem
    apply List.mem_cons_of_mem
    exact List.mem_append.mpr (Or.inr (List.mem_cons_self _ _))
  have hassoc : sgn ++ d :: '.' :: (body ++ 'e' :: ex) =
      (sgn ++ d :: '.' :: body) ++ 'e' :: ex := by
    simp
  rw [findSigfigsLsfF, hfix, if_pos hmem, hassoc,
    splitOnChar_append_cons 'e' ex hnoe, splitOnChar_of_not_mem hexe]
  have hfilter : (sgn ++ d :: '.' :: body).filter (fun c => ¬c = '-') =
      d :: '.' :: body := by
    rw [List.filter_append]
    have h1 : sgn.filter (fun c => ¬c = '-') = [] := by
      rcases hsgn with rfl | rfl
      · rfl
      · rfl
    rw [h1, List.nil_append, List.filter_cons, List.filter_cons]
    rw [if_pos (by simpa using ne_of_isDigit hd (by decide)),
      if_pos (by decide), filter_not_dash_digits hbody]
  have hdot : splitOnChar '.' (d :: '.' :: body) = [[d], body] := by
    have h1 : '.' ∉ [d] := by
      intro hm
      rw [List.mem_singleton] at hm
      exact absurd (hm ▸ hd) (by decide)
    have h2 : '.' ∉ body := not_mem_of_all_digit hbody (by decide)
    rw [show (d :: '.' :: body : PyStr) = [d] ++ '.' :: body from rfl,
      splitOnChar_append_cons '.' body h1, splitOnChar_of_not_mem h2]
  simp only [hfilter, hdot, hex, List.length_cons]
  show (if 0 < body.length then
      (Except.ok (body.length + 1 + 1 - 1, -(body.length : ℤ) + k) : Except Err (ℕ × ℤ))
    else Except.ok (body.length + 1 + 1 - 1, k)) = _
  have hlen : body.length + 1 + 1 - 1 = 1 + body.length := by omega
  rw [hlen]
  by_cases hb : 0 < body.length
  · rw [if_pos hb]
  · rw [if_neg hb]
    have h0 : body.length = 0 := by omega
    rw [h0]
    norm_num

theorem e_not_mem_expChars (k : ℤ) : 'e' ∉ expChars k := by
  intro hm
  unfold expChars at hm
  rcases List.mem_append.mp hm with hm | hm
  · split at hm <;> simp at hm
  · have hd : isDigitCh 'e' = true := by
      split at hm
      · rcases List.mem_cons.mp hm with he | hm
        · cases he
        · exact natCharsZ_all_digit _ _ hm
      · exact natCharsZ_all_digit _ _ hm
    exact absurd hd (by decide)

theorem expChars_lower_fixed (k : ℤ) : ∀ c ∈ expChars k, charLower c = c := by
  intro c hm
  unfold expChars at hm
  rcases List.mem_append.mp hm with hm | hm
  · split at hm <;> simp at hm <;> rw [hm] <;> decide
  · apply charLower_fixed_of_digit_or
    left
    split at hm
    · rcases List.mem_cons.mp hm with rfl | hm
      · decide
      · exact natCharsZ_all_digit _ _ hm
    · exact natCharsZ_all_digit _ _ hm

theorem filter_not_dot_digits {s : PyStr} (h : ∀ c ∈ s, isDigitCh c = true) :
    s.filter (fun c => ¬c = '.') = s := by
  apply List.filter_eq_self.mpr
  intro c hc
  simpa using ne_of_isDigit (h c hc) (by decide)

theorem filter_not_dot_fixed {sgn ip fp : PyStr} (hsgn : sgn = [] ∨ sgn = ['-'])
    (hip : ∀ c ∈ ip, isDigitCh c = true) (hfp : ∀ c ∈ fp, isDigitCh c = true) :
    (sgn ++ ip ++ '.' :: fp).filter (fun c => ¬c = '.') = sgn ++ ip ++ fp := by
  rw [List.filter_append, List.filter_append, List.filter_cons]
  rw [if_neg (by simp)]
  have h1 : sgn.filter (fun c => ¬c = '.') = sgn := by
    rcases hsgn with rfl | rfl <;> rfl
  rw [h1, filter_not_dot_digits hip, filter_not_dot_digits hfp]

theorem mem_of_mem_rstrip0 {s : PyStr} {c : Char} (h : c ∈ rstrip0 s) : c ∈ s := by
  have h2 : c ∈ rstrip0 s ++ List.replicate (trailZeroCount s) '0' :=
    List.mem_append.mpr (Or.inl h)
  rwa [rstrip0_recombine s] at h2

/-- One step of the parser's normalization branch on a nonzero value
whose literal contains a decimal point: the string is reformatted
through `%.8e`, its mantissa is stripped of trailing zeros, the
literal's own trailing zeros are appended back, and the parser recurses
on the resulting scientific string. -/
theorem parse_step_nonzero (fuel : ℕ) {x : PyStr} {v : ℚ} {d9 : Char} {rest9 : PyStr}
    (hfix : toLowerL x = x) (hnoe : 'e' ∉ x) (hdot : '.' ∈ x)
    (hlit : pyFloatLit x = .ok v) (hv : ¬v = 0)
    (hnc : natChars (sciDigits v 9).1 = d9 :: rest9)
    (hd9 : isDigitCh d9 = true) (hd90 : ¬d9 = '0')
    (hrest9 : ∀ c ∈ rest9, isDigitCh c = true) :
    findSigfigsLsfF (fuel + 1) x =
      findSigfigsLsfF fuel
        ((if v < 0 then ['-'] else []) ++ d9 :: '.' ::
          ((rstrip0 rest9 ++
            List.replicate (trailZeroCount (x.filter (fun c => ¬c = '.'))) '0') ++
            'e' :: expChars (sciDigits v 9).2)) := by
  have hpre : 'e' ∉ (if v < 0 then ['-'] else ([] : PyStr)) ++ d9 :: '.' :: rest9 := by
    intro hm
    rcases List.mem_append.mp hm with hm | hm
    · split at hm <;> simp at hm
    · rcases List.mem_cons.mp hm with he | hm
      · rw [← he] at hd9
        exact absurd hd9 (by decide)
      · rcases List.mem_cons.mp hm with he | hm
        · cases he
        · exact absurd (hrest9 _ hm) (by decide)
  have hfmt : formatE8 v = ((if v < 0 then ['-'] else []) ++ d9 :: '.' :: rest9) ++
      'e' :: expChars (sciDigits v 9).2 := by
    simp only [formatE8, mantissaChars, hnc]
  have hsplit : splitOnChar 'e' (formatE8 v) =
      [(if v < 0 then ['-'] else []) ++ d9 :: '.' :: rest9, expChars (sciDigits v 9).2] := by
    rw [hfmt, splitOnChar_append_cons _ _ hpre,
      splitOnChar_of_not_mem (e_not_mem_expChars _)]
  have hstrip : rstrip0 ((if v < 0 then ['-'] else []) ++ d9 :: '.' :: rest9) =
      (if v < 0 then ['-'] else []) ++ d9 :: '.' :: rstrip0 rest9 := by
    rw [show ((if v < 0 then ['-'] else ([] : PyStr)) ++ d9 :: '.' :: rest9) =
      ((if v < 0 then ['-'] else []) ++ [d9]) ++ '.' :: rest9 by simp]
    rw [rstrip0_append_cons (by decide)]
    simp
  rw [findSigfigsLsfF, hfix, if_neg hnoe]
  simp only [hlit]
  rw [if_neg hv]
  simp only [hsplit]
  rw [if_pos hdot, hstrip]
  congr 1
  simp

/-- Full evaluation of the parser on a nonzero fixed-point literal with
at most nine significant digits: the sig-fig count is the number of
significant digits of the digit content and the lsf is the negated
fractional length. -/
theorem parse_fixed_exact {sgn ip fp : PyStr} (hsgn : sgn = [] ∨ sgn = ['-'])
    (hip : ∀ c ∈ ip, isDigitCh c = true) (hfp : ∀ c ∈ fp, isDigitCh c = true)
    (hne : ip ≠ [] ∨ fp ≠ [])
    (hN : 1 ≤ digitsToNat (ip ++ fp))
    (hL : (natChars (digitsToNat (ip ++ fp))).length ≤ 9) :
    find_sigfigs_lsf (sgn ++ ip ++ '.' :: fp) =
      .ok ((natChars (digitsToNat (ip ++ fp))).length, -(fp.length : ℤ)) := by
  set N := digitsToNat (ip ++ fp) with hNdef
  set L := (natChars N).length with hLdef
  obtain ⟨j, sd, hsd, hval, hdig, hhead⟩ := digit_string_strip (ip ++ fp)
    (fun c hc => by
      rcases List.mem_append.mp hc with hc | hc
      exacts [hip c hc, hfp c hc])
  rcases hhead with rfl | ⟨d, t, rfl, hd0⟩
  · exfalso
    rw [show digitsToNat ([] : PyStr) = 0 from rfl, ← hNdef] at hval
    omega
  have hd : isDigitCh d = true := hdig d (List.mem_cons_self _ _)
  have ht : ∀ c ∈ t, isDigitCh c = true := fun c hc => hdig c (List.mem_cons_of_mem _ hc)
  have hNsd : digitsToNat (d :: t) = N := hval
  have hnc : natChars N = d :: t := by
    rw [← hNsd]
    exact natChars_digitsToNat hd hd0 ht
  have hLt : L = t.length + 1 := by
    rw [hLdef, hnc, List.length_cons]
  obtain ⟨hb1, hb2⟩ := digitsToNat_head_bounds hd hd0 ht
  rw [hNsd] at hb1 hb2
  have hlit := pyFloatLit_fixed hsgn hip hfp hne
  set w : ℚ := (digitsToNat ip : ℚ) + (digitsToNat fp : ℚ) / (10 : ℚ) ^ fp.length with hwdef
  have hNcast : (N : ℚ) = (digitsToNat ip : ℚ) * (10 : ℚ) ^ fp.length +
      (digitsToNat fp : ℚ) := by
    rw [hNdef, digitsToNat_append]
    push_cast
    ring
  have hpow : (0 : ℚ) < (10 : ℚ) ^ fp.length := by positivity
  have hw : w = (N : ℚ) / (10 : ℚ) ^ fp.length := by
    rw [hwdef, hNcast]
    field_simp
  have hwpos : 0 < w := by
    rw [hw]
    apply div_pos _ hpow
    exact_mod_cast hN
  set v : ℚ := (if sgn = [] then (1 : ℚ) else -1) * w with hvdef
  have hv0 : ¬v = 0 := by
    rw [hvdef]
    rcases hsgn with rfl | rfl
    · rw [if_pos rfl, one_mul]
      exact ne_of_gt hwpos
    · rw [if_neg (by simp), neg_one_mul]
      exact ne_of_lt (neg_neg_of_pos hwpos)
  have habsv : |v| = w := by
    rw [hvdef]
    rcases hsgn with rfl | rfl
    · rw [if_pos rfl, one_mul, abs_of_pos hwpos]
    · rw [if_neg (by simp), neg_one_mul, abs_neg, abs_of_pos hwpos]
  set N9 := N * 10 ^ (9 - L) with hN9def
  have hL1 : 1 ≤ L := by omega
  have hb1' : 10 ^ 8 ≤ N9 := by
    rw [hN9def]
    calc 10 ^ 8 = 10 ^ t.length * 10 ^ (9 - L) := by
          rw [← pow_add]
          congr 1
          omega
      _ ≤ N * 10 ^ (9 - L) := Nat.mul_le_mul_right _ hb1
  have hb2' : N9 < 10 ^ 9 := by
    rw [hN9def]
    calc N * 10 ^ (9 - L) < 10 ^ (t.length + 1) * 10 ^ (9 - L) :=
          Nat.mul_lt_mul_of_lt_of_le hb2 le_rfl (by positivity)
      _ = 10 ^ 9 := by
          rw [← pow_add]
          congr 1
          omega
  have habs' : |v| = (N9 : ℚ) * (10 : ℚ) ^ ((L : ℤ) - 9 - fp.length) := by
    rw [habsv, hw, hN9def]
    push_cast
    rw [div_eq_mul_inv, ← zpow_natCast (10 : ℚ) fp.length, ← zpow_neg]
    rw [mul_assoc, ← zpow_natCast (10 : ℚ) (9 - L), ← zpow_add₀ (by norm_num : (10 : ℚ) ≠ 0)]
    congr 2
    omega
  have hsci : sciDigits v 9 = (N9, (9 : ℤ) - 1 + ((L : ℤ) - 9 - fp.length)) :=
    sciDigits_exact hv0 habs' (by simpa using hb1') (by simpa using hb2') (by norm_num)
  have hk9 : (sciDigits v 9).2 = (L : ℤ) - 1 - fp.length := by
    rw [hsci]
    push_cast
    ring
  have hnc' : natChars (sciDigits v 9).1 = d :: (t ++ List.replicate (9 - L) '0') := by
    rw [hsci]
    show natChars N9 = _
    rw [hN9def, natChars_mul_pow (by omega) _, hnc]
    rfl
  have hrest9 : ∀ c ∈ t ++ List.replicate (9 - L) '0', isDigitCh c = true := by
    intro c hc
    rcases List.mem_append.mp hc with hc | hc
    · exact ht c hc
    · rw [List.eq_of_mem_replicate hc]
      decide
  have hfixx : toLowerL (sgn ++ ip ++ '.' :: fp) = sgn ++ ip ++ '.' :: fp := by
    apply toLowerL_eq_self
    intro c hc
    apply charLower_fixed_of_digit_or
    rcases List.mem_append.mp hc with hc | hc
    · rcases List.mem_append.mp hc with hc | hc
      · rcases hsgn with rfl | rfl
        · cases hc
        · rw [List.mem_singleton] at hc
          subst hc
          right; right; left; rfl
      · exact Or.inl (hip c hc)
    · rcases List.mem_cons.mp hc with rfl | hc
      · right; left; rfl
      · exact Or.inl (hfp c hc)
  have hnoex : 'e' ∉ sgn ++ ip ++ '.' :: fp := by
    intro hm
    rcases List.mem_append.mp hm with hm | hm
    · rcases List.mem_append.mp hm with hm | hm
      · rcases hsgn with rfl | rfl
        · cases hm
        · rw [List.mem_singleton] at hm
          cases hm
      · exact absurd (hip _ hm) (by decide)
    · rcases List.mem_cons.mp hm with he | hm
      · cases he
      · exact absurd (hfp _ hm) (by decide)
  have hdotx : '.' ∈ sgn ++ ip ++ '.' :: fp :=
    List.mem_append.mpr (Or.inr (List.mem_cons_self _ _))
  have hzc : trailZeroCount ((sgn ++ ip ++ '.' :: fp).filter (fun c => ¬c = '.')) =
      trailZeroCount t := by
    rw [filter_not_dot_fixed hsgn hip hfp, List.append_assoc]
    rw [trailZeroCount_append_of_strip_ne (rstrip0_ne_nil_of_value (by rw [← hNdef]; omega))]
    rw [hsd, trailZeroCount_append_of_strip_ne
      (rstrip0_ne_nil_of_value (by rw [hNsd]; omega))]
    exact trailZeroCount_cons_of_ne t hd0
  show findSigfigsLsfF (999 + 1) (sgn ++ ip ++ '.' :: fp) = _
  rw [parse_step_nonzero 999 hfixx hnoex hdotx hlit hv0 hnc' hd hd0 hrest9]
  rw [hzc, rstrip0_append_zeros, rstrip0_recombine]
  show findSigfigsLsfF (998 + 1) _ = _
  have hsgnE : (if v < 0 then ['-'] else ([] : PyStr)) = [] ∨
      (if v < 0 then ['-'] else ([] : PyStr)) = ['-'] := by
    split
    · exact Or.inr rfl
    · exact Or.inl rfl
  rw [parse_sci_shape 998 hsgnE hd ht (pyIntLit_expChars _) (expChars_lower_fixed _)
    (e_not_mem_expChars _), hk9]
  congr 2
  · omega
  · omega

theorem dropWhile_dash_of_not_mem {s : PyStr} (h : '-' ∉ s) :
    s.dropWhile (fun c => c = '-') = s := by
  cases s with
  | nil => rfl
  | cons a r =>
    rw [List.dropWhile_cons, if_neg]
    simp only [decide_eq_true_eq]
    intro hcon
    exact h (hcon ▸ List.mem_cons_self _ _)

theorem stripDashes_of_not_mem {s : PyStr} (h : '-' ∉ s) : stripDashes s = s := by
  unfold stripDashes
  rw [dropWhile_dash_of_not_mem h, dropWhile_dash_of_not_mem (by simpa using h),
    List.reverse_reverse]

/-- Evaluation of the parser on a fixed-point literal denoting zero:
the zero branch counts all digit characters (sign and dot stripped) and
reports the negated fractional length. -/
theorem parse_fixed_zero {sgn ip fp : PyStr} (hsgn : sgn = [] ∨ sgn = ['-'])
    (hip : ∀ c ∈ ip, isDigitCh c = true) (hfp : ∀ c ∈ fp, isDigitCh c = true)
    (hne : ip ≠ [] ∨ fp ≠ []) (hN0 : digitsToNat (ip ++ fp) = 0) :
    find_sigfigs_lsf (sgn ++ ip ++ '.' :: fp) =
      .ok (((stripDashes (sgn ++ ip ++ '.' :: fp)).filter (fun c => ¬c = '.')).length,
        -(fp.length : ℤ)) := by
  have hip0 : digitsToNat ip = 0 := by
    rw [digitsToNat_append] at hN0
    have : 1 ≤ 10 ^ fp.length := Nat.one_le_pow _ _ (by norm_num)
    nlinarith [Nat.zero_le (digitsToNat ip), Nat.zero_le (digitsToNat fp)]
  have hfp0 : digitsToNat fp = 0 := by
    rw [digitsToNat_append] at hN0
    omega
  have hlit := pyFloatLit_fixed hsgn hip hfp hne
  rw [hip0, hfp0] at hlit
  have hveq : (if sgn = [] then (1 : ℚ) else -1) *
      (((0 : ℕ) : ℚ) + ((0 : ℕ) : ℚ) / (10 : ℚ) ^ fp.length) = 0 := by
    push_cast
    ring
  rw [hveq] at hlit
  have hfixx : toLowerL (sgn ++ ip ++ '.' :: fp) = sgn ++ ip ++ '.' :: fp := by
    apply toLowerL_eq_self
    intro c hc
    apply charLower_fixed_of_digit_or
    rcases List.mem_append.mp hc with hc | hc
    · rcases List.mem_append.mp hc with hc | hc
      · rcases hsgn with rfl | rfl
        · cases hc
        · rw [List.mem_singleton] at hc
          subst hc
          right; right; left; rfl
      · exact Or.inl (hip c hc)
    · rcases List.mem_cons.mp hc with rfl | hc
      · right; left; rfl
      · exact Or.inl (hfp c hc)
  have hnoex : 'e' ∉ sgn ++ ip ++ '.' :: fp := by
    intro hm
    rcases List.mem_append.mp hm with hm | hm
    · rcases List.mem_append.mp hm with hm | hm
      · rcases hsgn with rfl | rfl
        · cases hm
        · rw [List.mem_singleton] at hm
          cases hm
      · exact absurd (hip _ hm) (by decide)
    · rcases List.mem_cons.mp hm with he | hm
      · cases he
      · exact absurd (hfp _ hm) (by decide)
  have hdotpre : '.' ∉ sgn ++ ip := by
    intro hm
    rcases List.mem_append.mp hm with hm | hm
    · rcases hsgn with rfl | rfl
      · cases hm
      · rw [List.mem_singleton] at hm
        cases hm
    · exact absurd (hip _ hm) (by decide)
  have hdsplit : splitOnChar '.' (sgn ++ ip ++ '.' :: fp) = [sgn ++ ip, fp] := by
    rw [splitOnChar_append_cons '.' fp hdotpre,
      splitOnChar_of_not_mem (not_mem_of_all_digit hfp (by decide))]
  show findSigfigsLsfF (999 + 1) (sgn ++ ip ++ '.' :: fp) = _
  rw [findSigfigsLsfF, hfixx, if_neg hnoex]
  simp only [hlit]
  rw [if_pos trivial]
  simp only [hdsplit]

theorem mem_of_mem_stripDashes {s : PyStr} {c : Char} (h : c ∈ stripDashes s) : c ∈ s := by
  unfold stripDashes at h
  rw [List.mem_reverse] at h
  have h1 : List.Sublist
      (List.dropWhile (fun c => c = '-') ((s.dropWhile (fun c => c = '-')).reverse))
      ((s.dropWhile (fun c => c = '-')).reverse) := List.dropWhile_sublist _
  have h2 := h1.mem h
  rw [List.mem_reverse] at h2
  have h3 : List.Sublist (List.dropWhile (fun c => c = '-') s) s := List.dropWhile_sublist _
  exact h3.mem h2

/-- Parsing a fixed-point literal always succeeds. -/
theorem parse_fixed_ok {sgn ip fp : PyStr} (hsgn : sgn = [] ∨ sgn = ['-'])
    (hip : ∀ c ∈ ip, isDigitCh c = true) (hfp : ∀ c ∈ fp, isDigitCh c = true)
    (hne : ip ≠ [] ∨ fp ≠ []) :
    ∃ pr, find_sigfigs_lsf (sgn ++ ip ++ '.' :: fp) = .ok pr := by
  by_cases hN0 : digitsToNat (ip ++ fp) = 0
  · exact ⟨_, parse_fixed_zero hsgn hip hfp hne hN0⟩
  · have hlit := pyFloatLit_fixed hsgn hip hfp hne
    set w : ℚ := (digitsToNat ip : ℚ) + (digitsToNat fp : ℚ) / (10 : ℚ) ^ fp.length
      with hwdef
    have hNcast : ((digitsToNat (ip ++ fp) : ℕ) : ℚ) =
        (digitsToNat ip : ℚ) * (10 : ℚ) ^ fp.length + (digitsToNat fp : ℚ) := by
      rw [digitsToNat_append]
      push_cast
      ring
    have hpow : (0 : ℚ) < (10 : ℚ) ^ fp.length := by positivity
    have hw : w = ((digitsToNat (ip ++ fp) : ℕ) : ℚ) / (10 : ℚ) ^ fp.length := by
      rw [hwdef, hNcast]
      field_simp
    have hwpos : 0 < w := by
      rw [hw]
      apply div_pos _ hpow
      exact_mod_cast Nat.pos_of_ne_zero hN0
    set v : ℚ := (if sgn = [] then (1 : ℚ) else -1) * w with hvdef
    have hv0 : ¬v = 0 := by
      rw [hvdef]
      rcases hsgn with rfl | rfl
      · rw [if_pos rfl, one_mul]
        exact ne_of_gt hwpos
      · rw [if_neg (by simp), neg_one_mul]
        exact ne_of_lt (neg_neg_of_pos hwpos)
    obtain ⟨⟨hm1, hm2⟩, _, _⟩ := sciDigits_spec v hv0 9 (by norm_num)
    obtain ⟨d9, t9, hnc, hd9, hd90, hlen9, ht9⟩ := natChars_head hm1 hm2 (by norm_num)
    have hfixx : toLowerL (sgn ++ ip ++ '.' :: fp) = sgn ++ ip ++ '.' :: fp := by
      apply toLowerL_eq_self
      intro c hc
      apply charLower_fixed_of_digit_or
      rcases List.mem_append.mp hc with hc | hc
      · rcases List.mem_append.mp hc with hc | hc
        · rcases hsgn with rfl | rfl
          · cases hc
          · rw [List.mem_singleton] at hc
            subst hc
            right; right; left; rfl
        · exact Or.inl (hip c hc)
      · rcases List.mem_cons.mp hc with rfl | hc
        · right; left; rfl
        · exact Or.inl (hfp c hc)
    have hnoex : 'e' ∉ sgn ++ ip ++ '.' :: fp := by
      intro hm
      rcases List.mem_append.mp hm with hm | hm
      · rcases List.mem_append.mp hm with hm | hm
        · rcases hsgn with rfl | rfl
          · cases hm
          · rw [List.mem_singleton] at hm
            cases hm
        · exact absurd (hip _ hm) (by decide)
      · rcases List.mem_cons.mp hm with he | hm
        · cases he
        · exact absurd (hfp _ hm) (by decide)
    have hdotx : '.' ∈ sgn ++ ip ++ '.' :: fp :=
      List.mem_append.mpr (Or.inr (List.mem_cons_self _ _))
    have hbody : ∀ c ∈ rstrip0 t9 ++
        List.replicate (trailZeroCount
          ((sgn ++ ip ++ '.' :: fp).filter (fun c => ¬c = '.'))) '0',
        isDigitCh c = true := by
      intro c hc
      rcases List.mem_append.mp hc with hc | hc
      · exact ht9 c (mem_of_mem_rstrip0 hc)
      · rw [List.eq_of_mem_replicate hc]
        decide
    have hsgnE : (if v < 0 then ['-'] else ([] : PyStr)) = [] ∨
        (if v < 0 then ['-'] else ([] : PyStr)) = ['-'] := by
      split
      · exact Or.inr rfl
      · exact Or.inl rfl
    exact ⟨_, (parse_step_nonzero 999 hfixx hnoex hdotx hlit hv0 hnc hd9 hd90 ht9).trans
      (parse_sci_shape 998 hsgnE hd9 hbody (pyIntLit_expChars _)
        (expChars_lower_fixed _) (e_not_mem_expChars _))⟩

/-- Parsing the rendering of zero at any precision: all digit
characters count as significant and the lsf is the negated fractional
length. -/
theorem parse_formatG_zero (p : ℕ) :
    find_sigfigs_lsf (formatG 0 p) = .ok (max p 1, -((max p 1 - 1 : ℕ) : ℤ)) := by
  have hrep : ∀ c ∈ List.replicate (max p 1 - 1) '0', isDigitCh c = true := by
    intro c hc
    rw [List.eq_of_mem_replicate hc]
    decide
  have hz : digitsToNat (['0'] ++ List.replicate (max p 1 - 1) '0') = 0 := by
    rw [digitsToNat_append, digitsToNat_replicate_zero]
    show (10 * 0 + (48 - 48)) * 10 ^ _ + 0 = 0
    ring
  have hstep := @parse_fixed_zero [] ['0'] (List.replicate (max p 1 - 1) '0') (Or.inl rfl)
    (by intro c hc; rw [List.mem_singleton] at hc; subst hc; decide)
    hrep (Or.inl (by simp)) hz
  have hshape : formatG 0 p = [] ++ ['0'] ++ '.' :: List.replicate (max p 1 - 1) '0' := by
    simp only [formatG, if_pos rfl]
    rfl
  rw [hshape, hstep]
  have hnod : '-' ∉ ([] ++ ['0'] ++ '.' :: List.replicate (max p 1 - 1) '0' : PyStr) := by
    intro hm
    rcases List.mem_append.mp hm with hm | hm
    · rw [List.nil_append, List.mem_singleton] at hm
      cases hm
    · rcases List.mem_cons.mp hm with he | hm
      · cases he
      · exact absurd (List.eq_of_mem_replicate hm) (by decide)
  rw [stripDashes_of_not_mem hnod]
  congr 2
  · rw [List.nil_append]
    rw [show (['0'] ++ '.' :: List.replicate (max p 1 - 1) '0' : PyStr) =
      '0' :: '.' :: List.replicate (max p 1 - 1) '0' from rfl]
    rw [List.filter_cons, List.filter_cons, if_pos (by decide), if_neg (by simp),
      filter_not_dot_digits hrep, List.length_cons, List.length_replicate]
    omega
  · rw [List.length_replicate]

/-- Parsing the general-format rendering of a nonzero value at one to
nine significant digits recovers exactly that digit count, with the lsf
determined by the rendering's decimal exponent. -/
theorem parse_formatG_exact {q : ℚ} (hq : ¬q = 0) {n : ℕ} (hn : 1 ≤ n) (h9 : n ≤ 9) :
    find_sigfigs_lsf (formatG q n) = .ok (n, (sciDigits q n).2 - n + 1) := by
  have hmax : max n 1 = n := by omega
  obtain ⟨⟨hm1, hm2⟩, herr, hcar⟩ := sciDigits_spec q hq n hn
  obtain ⟨d, t, hnc, hd, hd0, hlen, ht⟩ := natChars_head hm1 hm2 hn
  have hM1 : 1 ≤ (sciDigits q n).1 :=
    le_trans (Nat.one_le_pow _ _ (by norm_num)) hm1
  have hlenM : (natChars (sciDigits q n).1).length = n := by
    rw [hnc, List.length_cons]
    omega
  have hsgn : (if q < 0 then ['-'] else ([] : PyStr)) = [] ∨
      (if q < 0 then ['-'] else ([] : PyStr)) = ['-'] := by
    split
    · exact Or.inr rfl
    · exact Or.inl rfl
  simp only [formatG, hmax]
  rw [if_neg hq]
  by_cases hcase : -4 ≤ (sciDigits q n).2 ∧ (sciDigits q n).2 < (n : ℤ)
  · rw [if_pos hcase]
    by_cases hk0 : 0 ≤ (sciDigits q n).2
    · rw [if_pos hk0]
      set K : ℕ := (sciDigits q n).2.toNat + 1 with hKdef
      have hKcast : ((sciDigits q n).2.toNat : ℤ) = (sciDigits q n).2 :=
        Int.toNat_of_nonneg hk0
      have hKle : K ≤ n := by omega
      have hip : ∀ c ∈ (natChars (sciDigits q n).1).take K, isDigitCh c = true :=
        fun c hc => natChars_all_digit _ c (List.mem_of_mem_take hc)
      have hfp : ∀ c ∈ (natChars (sciDigits q n).1).drop K, isDigitCh c = true :=
        fun c hc => natChars_all_digit _ c (List.mem_of_mem_drop hc)
      have hconcat : (natChars (sciDigits q n).1).take K ++
          (natChars (sciDigits q n).1).drop K = natChars (sciDigits q n).1 :=
        List.take_append_drop _ _
      have hipne : (natChars (sciDigits q n).1).take K ≠ [] := by
        rw [hnc, hKdef]
        simp [List.take_succ_cons]
      have hvalN : digitsToNat ((natChars (sciDigits q n).1).take K ++
          (natChars (sciDigits q n).1).drop K) = (sciDigits q n).1 := by
        rw [hconcat, digitsToNat_natChars]
      refine (parse_fixed_exact hsgn hip hfp (Or.inl hipne)
        (by rw [hvalN]; exact hM1) (by rw [hvalN, hlenM]; exact h9)).trans ?_
      rw [hvalN, hlenM, List.length_drop, hlenM]
      rw [show -(((n - K : ℕ) : ℕ) : ℤ) = (sciDigits q n).2 - n + 1 by omega]
    · rw [if_neg hk0]
      set J : ℕ := (-(sciDigits q n).2 - 1).toNat with hJdef
      have hJcast : (J : ℤ) = -(sciDigits q n).2 - 1 := by
        rw [hJdef]
        exact Int.toNat_of_nonneg (by omega)
      have hip0 : ∀ c ∈ (['0'] : PyStr), isDigitCh c = true := by
        intro c hc
        rw [List.mem_singleton] at hc
        subst hc
        decide
      have hfp : ∀ c ∈ List.replicate J '0' ++ natChars (sciDigits q n).1,
          isDigitCh c = true := by
        intro c hc
        rcases List.mem_append.mp hc with hc | hc
        · rw [List.eq_of_mem_replicate hc]
          decide
        · exact natChars_all_digit _ c hc
      have hvalN : digitsToNat (['0'] ++
          (List.replicate J '0' ++ natChars (sciDigits q n).1)) =
          (sciDigits q n).1 := by
        rw [show (['0'] ++ (List.replicate J '0' ++ natChars (sciDigits q n).1) : PyStr) =
          '0' :: (List.replicate J '0' ++ natChars (sciDigits q n).1) from rfl]
        rw [digitsToNat_cons_zero, digitsToNat_append, digitsToNat_replicate_zero,
          digitsToNat_natChars]
        ring
      have hshape : ((if q < 0 then ['-'] else []) ++ '0' :: '.' ::
          List.replicate J '0' ++ natChars (sciDigits q n).1 : PyStr) =
          (if q < 0 then ['-'] else []) ++ ['0'] ++ '.' ::
            (List.replicate J '0' ++ natChars (sciDigits q n).1) := by
        simp
      rw [hshape]
      refine (parse_fixed_exact hsgn hip0 hfp (Or.inl (by simp))
        (by rw [hvalN]; exact hM1) (by rw [hvalN, hlenM]; exact h9)).trans ?_
      rw [hvalN, hlenM, List.length_append, List.length_replicate, hlenM]
      rw [show -(((J + n : ℕ)) : ℤ) = (sciDigits q n).2 - n + 1 by
        push_cast
        omega]
  · rw [if_neg hcase]
    have hshape : ((if q < 0 then ['-'] else []) ++ mantissaChars (sciDigits q n).1 ++
        'e' :: expChars (sciDigits q n).2 : PyStr) =
        (if q < 0 then ['-'] else []) ++ d :: '.' ::
          (t ++ 'e' :: expChars (sciDigits q n).2) := by
      rw [mantissaChars, hnc]
      simp
    rw [hshape]
    show findSigfigsLsfF (999 + 1) _ = _
    refine (parse_sci_shape 999 hsgn hd ht (pyIntLit_expChars _)
      (expChars_lower_fixed _) (e_not_mem_expChars _)).trans ?_
    rw [hlen]
    rw [show 1 + (n - 1) = n by omega]
    rw [show -(((n - 1 : ℕ)) : ℤ) + (sciDigits q n).2 = (sciDigits q n).2 - n + 1 by
      push_cast [hn]
      omega]

/-- Parsing the general-format rendering of any value at any precision
succeeds. -/
theorem parse_formatG_ok (q : ℚ) (n : ℕ) :
    ∃ pr, find_sigfigs_lsf (formatG q n) = .ok pr := by
  by_cases hq : q = 0
  · subst hq
    exact ⟨_, parse_formatG_zero n⟩
  · obtain ⟨⟨hm1, hm2⟩, herr, hcar⟩ := sciDigits_spec q hq (max n 1) (le_max_right _ _)
    obtain ⟨d, t, hnc, hd, hd0, hlen, ht⟩ := natChars_head hm1 hm2 (le_max_right _ _)
    have hsgn : (if q < 0 then ['-'] else ([] : PyStr)) = [] ∨
        (if q < 0 then ['-'] else ([] : PyStr)) = ['-'] := by
      split
      · exact Or.inr rfl
      · exact Or.inl rfl
    simp only [formatG]
    rw [if_neg hq]
    by_cases hcase : -4 ≤ (sciDigits q (max n 1)).2 ∧
        (sciDigits q (max n 1)).2 < ((max n 1 : ℕ) : ℤ)
    · rw [if_pos hcase]
      by_cases hk0 : 0 ≤ (sciDigits q (max n 1)).2
      · rw [if_pos hk0]
        have hip : ∀ c ∈ (natChars (sciDigits q (max n 1)).1).take
            ((sciDigits q (max n 1)).2.toNat + 1), isDigitCh c = true :=
          fun c hc => natChars_all_digit _ c (List.mem_of_mem_take hc)
        have hfp : ∀ c ∈ (natChars (sciDigits q (max n 1)).1).drop
            ((sciDigits q (max n 1)).2.toNat + 1), isDigitCh c = true :=
          fun c hc => natChars_all_digit _ c (List.mem_of_mem_drop hc)
        have hipne : (natChars (sciDigits q (max n 1)).1).take
            ((sciDigits q (max n 1)).2.toNat + 1) ≠ [] := by
          rw [hnc]
          simp [List.take_succ_cons]
        exact parse_fixed_ok hsgn hip hfp (Or.inl hipne)
      · rw [if_neg hk0]
        have hip0 : ∀ c ∈ (['0'] : PyStr), isDigitCh c = true := by
          intro c hc
          rw [List.mem_singleton] at hc
          subst hc
          decide
        have hfp : ∀ c ∈ List.replicate (-(sciDigits q (max n 1)).2 - 1).toNat '0' ++
            natChars (sciDigits q (max n 1)).1, isDigitCh c = true := by
          intro c hc
          rcases List.mem_append.mp hc with hc | hc
          · rw [List.eq_of_mem_replicate hc]
            decide
          · exact natChars_all_digit _ c hc
        have hshape : ((if q < 0 then ['-'] else []) ++ '0' :: '.' ::
            List.replicate (-(sciDigits q (max n 1)).2 - 1).toNat '0' ++
            natChars (sciDigits q (max n 1)).1 : PyStr) =
            (if q < 0 then ['-'] else []) ++ ['0'] ++ '.' ::
              (List.replicate (-(sciDigits q (max n 1)).2 - 1).toNat '0' ++
                natChars (sciDigits q (max n 1)).1) := by
          simp
        rw [hshape]
        exact parse_fixed_ok hsgn hip0 hfp (Or.inl (by simp))
    · rw [if_neg hcase]
      have hshape : ((if q < 0 then ['-'] else []) ++
          mantissaChars (sciDigits q (max n 1)).1 ++
          'e' :: expChars (sciDigits q (max n 1)).2 : PyStr) =
          (if q < 0 then ['-'] else []) ++ d :: '.' ::
            (t ++ 'e' :: expChars (sciDigits q (max n 1)).2) := by
        rw [mantissaChars, hnc]
        simp
      rw [hshape]
      exact ⟨_, parse_sci_shape 999 hsgn hd ht (pyIntLit_expChars _)
        (expChars_lower_fixed _) (e_not_mem_expChars _)⟩

/-! Constructor-level helpers. -/

theorem deriveLsf_ok (q : ℚ) (m : ℕ) : ∃ z, deriveLsf (.fin q) (.fin m) = .ok z := by
  obtain ⟨pr, hpr⟩ := parse_formatG_ok q m
  refine ⟨pr.2, ?_⟩
  simp only [deriveLsf]
  rw [show formatGP (.fin q) m = formatG q m from rfl, hpr]
  rfl

theorem fromFloat_fin_exists (q : ℚ) (m : ℕ) (eo : Option Lsf)
    (heo : eo = none ∨ ∃ z0, eo = some (.i z0)) :
    ∃ z : ℤ, fromFloat (.fin q) (some (.fin m)) eo = .ok ⟨.fin q, .fin m, .i z⟩ := by
  obtain ⟨z, hz⟩ := deriveLsf_ok q m
  rcases heo with rfl | ⟨z0, rfl⟩
  · refine ⟨z, ?_⟩
    simp only [fromFloat]
    rw [hz]
    rfl
  · by_cases ht : (Lsf.i z0).truthy = true
    · refine ⟨z0, ?_⟩
      simp only [fromFloat]
      rw [if_pos ht]
    · refine ⟨z, ?_⟩
      simp only [fromFloat]
      rw [if_neg ht, hz]
      rfl

theorem pyDiv_fin {va vb : ℚ} (h : ¬vb = 0) :
    pyDiv (.fin va) (.fin vb) = .ok (.fin (qDiv va vb)) := by
  unfold pyDiv
  split <;> simp_all

theorem pyFloorDiv_fin {va vb : ℚ} (h : ¬vb = 0) :
    pyFloorDiv (.fin va) (.fin vb) = .ok (.fin ((⌊qDiv va vb⌋ : ℤ) : ℚ)) := by
  unfold pyFloorDiv
  split <;> simp_all

theorem parse_sgn_fixed_ok (sgn ds : PyStr) (p : ℕ) (hsgn : sgn = [] ∨ sgn = ['-'])
    (hd : ∀ c ∈ ds, isDigitCh c = true) (h1 : 1 ≤ ds.length - p) :
    ∃ pr, find_sigfigs_lsf
      (sgn ++ (ds.take (ds.length - p) ++ '.' :: ds.drop (ds.length - p))) = .ok pr := by
  rw [show sgn ++ (ds.take (ds.length - p) ++ '.' :: ds.drop (ds.length - p)) =
    sgn ++ ds.take (ds.length - p) ++ '.' :: ds.drop (ds.length - p) by simp]
  have hipne : ds.take (ds.length - p) ≠ [] := by
    intro hcon
    have := congrArg List.length hcon
    rw [List.length_take] at this
    simp at this
    omega
  exact parse_fixed_ok hsgn (fun c hc => hd c (List.mem_of_mem_take hc))
    (fun c hc => hd c (List.mem_of_mem_drop hc)) (Or.inl hipne)

/-- Parsing the fixed-point rendering of any value at nonzero precision
succeeds. -/
theorem parse_formatF_ok (q : ℚ) (p : ℕ) (hp : p ≠ 0) :
    ∃ pr, find_sigfigs_lsf (formatF q p) = .ok pr := by
  simp only [formatF]
  rw [if_neg hp]
  have hsgnQ : (if q < 0 then ['-'] else ([] : PyStr)) = [] ∨
      (if q < 0 then ['-'] else ([] : PyStr)) = ['-'] := by
    split
    · exact Or.inr rfl
    · exact Or.inl rfl
  refine parse_sgn_fixed_ok _
    (List.replicate (p + 1 - (natCharsZ ((roundHE (qMul |q| (qpow10 (p : ℤ)))).toNat)).length)
      '0' ++ natCharsZ ((roundHE (qMul |q| (qpow10 (p : ℤ)))).toNat)) p hsgnQ ?_ ?_
  · intro c hc
    rcases List.mem_append.mp hc with hc | hc
    · rw [List.eq_of_mem_replicate hc]
      decide
    · exact natCharsZ_all_digit _ c hc
  · rw [List.length_append, List.length_replicate]
    have := natCharsZ_ne_nil ((roundHE (qMul |q| (qpow10 (p : ℤ)))).toNat)
    have hpos : 1 ≤ (natCharsZ ((roundHE (qMul |q| (qpow10 (p : ℤ)))).toNat)).length := by
      cases hne : natCharsZ ((roundHE (qMul |q| (qpow10 (p : ℤ)))).toNat) with
      | nil => exact absurd hne this
      | cons a b => simp
    omega

/-- C7 (code_bug evidence): constructing a `SigFig` from the empty
string raises `ValueError`.  The source's empty-string branch assigns
the NaN state, but the missing `elif` lets control fall through into
`float('')`, which raises; the claimed NaN result is never returned. -/
theorem c7_empty_string_raises : fromString (pystr "") none = .error .valueError := by
  decide

/-- C10: `__ne__` is not the negation of `__eq__`: the Values built
from `"0.0"` and `"0.00"` are equal under `__eq__` (both magnitudes are
zero) and simultaneously unequal under `__ne__` (their display strings
`"0.0"` and `"0.00"` differ). -/
theorem c10_ne_not_negation_of_eq :
    fromString (pystr "0.0") none = .ok ⟨.fin 0, .fin 0, .i (-1)⟩ ∧
    fromString (pystr "0.00") none = .ok ⟨.fin 0, .fin 0, .i (-2)⟩ ∧
    eqFn ⟨.fin 0, .fin 0, .i (-1)⟩ ⟨.fin 0, .fin 0, .i (-2)⟩ = .ok true ∧
    neFn ⟨.fin 0, .fin 0, .i (-1)⟩ ⟨.fin 0, .fin 0, .i (-2)⟩ = .ok true := by
  decide

/-- C1 (counterexample): the round-trip property fails as stated.
First, on the zero literal `"0.0"`: the constructed Value holds the
pair `(0, -1)` (the constructor overrides the count of a zero string to
`0`), its canonical rendering is `"0.0"`, but reparsing that rendering
yields `(2, -1) ≠ (0, -1)`.  Second, on the nonzero scientific literal
`"0.123e5"` with non-normalized mantissa: the Value holds `(4, 2)`, its
rendering is `"1.230e+04"`, and reparsing yields `(4, 1) ≠ (4, 2)`. -/
theorem c1_counterexample :
    (fromString (pystr "0.0") none = .ok ⟨.fin 0, .fin 0, .i (-1)⟩ ∧
     strFn ⟨.fin 0, .fin 0, .i (-1)⟩ = .ok (pystr "0.0") ∧
     find_sigfigs_lsf (pystr "0.0") = .ok (2, -1)) ∧
    (fromString (pystr "0.123e5") none = .ok ⟨.fin 12300, .fin 4, .i 2⟩ ∧
     strFn ⟨.fin 12300, .fin 4, .i 2⟩ = .ok (pystr "1.230e+04") ∧
     find_sigfigs_lsf (pystr "1.230e+04") = .ok (4, 1)) := by
  decide

/-- C2 (counterexample): adding `Value("9.16")` (lsf `-2`) and
`Value("0.8")` (lsf `-1`) must, per the claim, round the result at
decimal position `max(-2, -1) = -1`; rounding the raw sum `9.96` there
gives `"10.0"`.  But the resulting Value carries lsf `-2` and renders
as `"9.96"`, still exposing the hundredths digit: the carry into a new
decade during the `max`-position formatting bumps the derived count to
3, and the re-derived lsf lands at `-2`, not at `max(a.lsf, b.lsf)`. -/
theorem c2_counterexample :
    fromString (pystr "9.16") none = .ok ⟨.fin (mkRat 229 25), .fin 3, .i (-2)⟩ ∧
    fromString (pystr "0.8") none = .ok ⟨.fin (mkRat 4 5), .fin 1, .i (-1)⟩ ∧
    addSF ⟨.fin (mkRat 229 25), .fin 3, .i (-2)⟩ ⟨.fin (mkRat 4 5), .fin 1, .i (-1)⟩ =
      .ok ⟨.fin (mkRat 249 25), .fin 3, .i (-2)⟩ ∧
    strFn ⟨.fin (mkRat 249 25), .fin 3, .i (-2)⟩ = .ok (pystr "9.96") ∧
    formatFP (.fin (mkRat 249 25)) 1 = pystr "10.0" := by
  decide

/-- C4 (counterexample): dividing the finite `Value("4.8")` (two sig
figs) by an Infinity Value yields magnitude `0` but sig-fig count `2`,
not the claimed count `0`: `min(2, inf) = 2` is nonzero, so the quotient
is rebuilt with the dividend's own count. -/
theorem c4_counterexample :
    fromString (pystr "4.8") none = .ok ⟨.fin (mkRat 24 5), .fin 2, .i (-1)⟩ ∧
    fromFloat .inf none none = .ok ⟨.inf, .unb, .nmark⟩ ∧
    divSF ⟨.fin (mkRat 24 5), .fin 2, .i (-1)⟩ ⟨.inf, .unb, .nmark⟩ =
      .ok ⟨.fin 0, .fin 2, .i (-1)⟩ := by
  decide

/-- C5: subtraction zero-cancellation.  For Values with integer lsf
attributes and `precision = max(a.lsf, b.lsf) < 0`, when every digit of
the raw difference formatted to `-precision` fractional digits is zero,
`a - b` succeeds with sig-fig count `0`, raw difference as magnitude,
and lsf the negated number of fractional digits of the formatted string
(which equals `precision` itself). -/
theorem c5_sub_zero_cancellation (a b : SigFig) (va vb : ℚ) (za zb : ℤ)
    (hva : a.value = .fin va) (hvb : b.value = .fin vb)
    (hla : a.lsf = .i za) (hlb : b.lsf = .i zb)
    (hp : max za zb < 0)
    (hz : checkAnyNonzero (formatF (qSub va vb) (-(max za zb)).toNat) = .ok false) :
    subSF a b = .ok ⟨.fin (qSub va vb), .fin 0,
      .i (-(fracLen (formatF (qSub va vb) (-(max za zb)).toNat) : ℤ))⟩ ∧
    fracLen (formatF (qSub va vb) (-(max za zb)).toNat) = (-(max za zb)).toNat := by
  have hpt : (-(max za zb)).toNat ≠ 0 := by omega
  obtain ⟨ip, fp, hsplit, hflen⟩ := formatF_shape (qSub va vb) (-(max za zb)).toNat hpt
  have hfrac : fracLen (formatF (qSub va vb) (-(max za zb)).toNat) = (-(max za zb)).toNat := by
    unfold fracLen
    rw [hsplit]
    exact hflen
  refine ⟨?_, hfrac⟩
  have hfp0 : Lsf.truthy (.i (-(fp.length : ℤ))) = true := by
    simp only [Lsf.truthy, decide_eq_true_eq]
    omega
  simp only [subSF, hva, hvb, hla, hlb, pySub, if_pos hp, formatFP]
  rw [hz]
  show Except.bind (Except.ok false) _ = _
  simp only [Except.bind]
  rw [if_neg Bool.false_ne_true, hsplit]
  simp only [fromFloat, hfp0, if_pos]
  rw [hfrac, hflen]

/-- C8 (counterexample): the claim asserts that a scientific literal
whose mantissa has no decimal point still parses, with lsf equal to the
exponent; but `find_sigfigs_lsf("2e3")` evaluates `split('.')[1]` on
the mantissa `"2"` and raises `IndexError` instead of returning
`(0, 3)`. -/
theorem c8_counterexample : find_sigfigs_lsf (pystr "2e3") = .error .indexError := by
  decide

/-- C3: the multiplicative min-rule.  For two Values with finite
magnitudes, finite sig-fig counts and integer lsf attributes, the
product, the true quotient and the floor quotient all succeed and the
result's sig-fig count is the minimum of the operands' counts (the
divisions additionally need a nonzero divisor). -/
theorem c3_multiplicative_min_rule (a b : SigFig) (va vb : ℚ) (na nb : ℕ) (za zb : ℤ)
    (hva : a.value = .fin va) (hvb : b.value = .fin vb)
    (hsa : a.sf = .fin na) (hsb : b.sf = .fin nb)
    (hla : a.lsf = .i za) (hlb : b.lsf = .i zb) (hvb0 : ¬vb = 0) :
    (∃ c, mulSF a b = .ok c ∧ c.sf = .fin (min na nb)) ∧
    (∃ c, divSF a b = .ok c ∧ c.sf = .fin (min na nb)) ∧
    (∃ c, floordivSF a b = .ok c ∧ c.sf = .fin (min na nb)) := by
  have hmin : SFCount.minC (.fin na) (.fin nb) = .fin (min na nb) := rfl
  have hlsfmin : lsfMin a.lsf b.lsf = .ok (.i (min za zb)) := by
    rw [hla, hlb]
    rfl
  have htail : ∀ res : PyFloat, ∀ q : ℚ, res = .fin q →
      ∃ c, (if SFCount.minC a.sf b.sf = .fin 0 then do
              let m ← lsfMin a.lsf b.lsf
              fromFloat res (some (.fin 0)) (some m)
            else fromFloat res (some (SFCount.minC a.sf b.sf)) none) = .ok c ∧
        c.sf = .fin (min na nb) := by
    intro res q hres
    subst hres
    rw [hsa, hsb, hmin]
    by_cases h0 : min na nb = 0
    · rw [if_pos (by rw [h0]), hlsfmin]
      obtain ⟨z, hz⟩ := fromFloat_fin_exists q 0 (some (.i (min za zb)))
        (Or.inr ⟨_, rfl⟩)
      refine ⟨⟨.fin q, .fin 0, .i z⟩, ?_, by rw [h0]⟩
      show Except.bind (Except.ok (Lsf.i (min za zb))) _ = _
      simp only [Except.bind]
      exact hz
    · rw [if_neg (fun hcon => h0 (by injection hcon))]
      obtain ⟨z, hz⟩ := fromFloat_fin_exists q (min na nb) none (Or.inl rfl)
      exact ⟨⟨.fin q, .fin (min na nb), .i z⟩, hz, rfl⟩
  refine ⟨?_, ?_, ?_⟩
  · obtain ⟨c, hc, hcs⟩ := htail (pyMul a.value b.value) (qMul va vb)
      (by rw [hva, hvb]; rfl)
    exact ⟨c, by simp only [mulSF]; exact hc, hcs⟩
  · obtain ⟨c, hc, hcs⟩ := htail (.fin (qDiv va vb)) (qDiv va vb) rfl
    refine ⟨c, ?_, hcs⟩
    simp only [divSF]
    rw [hva, hvb, pyDiv_fin hvb0]
    show Except.bind (Except.ok (PyFloat.fin (qDiv va vb))) _ = _
    simp only [Except.bind]
    exact hc
  · obtain ⟨c, hc, hcs⟩ := htail (.fin ((⌊qDiv va vb⌋ : ℤ) : ℚ)) _ rfl
    refine ⟨c, ?_, hcs⟩
    simp only [floordivSF]
    rw [hva, hvb, pyFloorDiv_fin hvb0]
    show Except.bind (Except.ok (PyFloat.fin ((⌊qDiv va vb⌋ : ℤ) : ℚ))) _ = _
    simp only [Except.bind]
    exact hc

theorem c3_witness :
    ((⟨.fin 5, .fin 3, .i (-2)⟩ : SigFig).value = .fin 5 ∧ ¬(2 : ℚ) = 0) ∧
    ((∃ c, mulSF ⟨.fin 5, .fin 3, .i (-2)⟩ ⟨.fin 2, .fin 1, .i 0⟩ = .ok c ∧
        c.sf = .fin (min 3 1)) ∧
     (∃ c, divSF ⟨.fin 5, .fin 3, .i (-2)⟩ ⟨.fin 2, .fin 1, .i 0⟩ = .ok c ∧
        c.sf = .fin (min 3 1)) ∧
     (∃ c, floordivSF ⟨.fin 5, .fin 3, .i (-2)⟩ ⟨.fin 2, .fin 1, .i 0⟩ = .ok c ∧
        c.sf = .fin (min 3 1))) :=
  ⟨⟨rfl, by norm_num⟩,
    c3_multiplicative_min_rule ⟨.fin 5, .fin 3, .i (-2)⟩ ⟨.fin 2, .fin 1, .i 0⟩
      5 2 3 1 (-2) 0 rfl rfl rfl rfl rfl rfl (by norm_num)⟩

/-- C4 (amended): dividing a finite Value carrying a nonzero finite
count by an Infinity Value yields magnitude `0` (true division) or
`0` / `-1` by sign (floor division), and the result keeps the
dividend's sig-fig count `n + 1` — it is not reset to `0`. -/
theorem c4_div_by_infinite_keeps_count (va : ℚ) (n : ℕ) (la : Lsf) :
    divSF ⟨.fin va, .fin (n + 1), la⟩ ⟨.inf, .unb, .nmark⟩ =
      .ok ⟨.fin 0, .fin (n + 1), .i (-(n : ℤ))⟩ ∧
    (∃ z, floordivSF ⟨.fin va, .fin (n + 1), la⟩ ⟨.inf, .unb, .nmark⟩ =
      .ok ⟨.fin (if va < 0 then -1 else 0), .fin (n + 1), .i z⟩) := by
  have hmin : SFCount.minC (.fin (n + 1)) .unb = .fin (n + 1) := rfl
  have hne0 : ¬(SFCount.fin (n + 1) = SFCount.fin 0) := by
    intro hcon
    injection hcon with h'
    omega
  constructor
  · have hparse := parse_formatG_zero (n + 1)
    rw [show max (n + 1) 1 = n + 1 by omega, show (n + 1 - 1 : ℕ) = n by omega] at hparse
    have hder : deriveLsf (.fin 0) (.fin (n + 1)) = .ok (-(n : ℤ)) := by
      simp only [deriveLsf]
      rw [show formatGP (.fin (0 : ℚ)) (n + 1) = formatG 0 (n + 1) from rfl, hparse]
      rfl
    simp only [divSF]
    rw [show pyDiv (PyFloat.fin va) PyFloat.inf = Except.ok (PyFloat.fin 0) from rfl]
    show Except.bind (Except.ok (PyFloat.fin 0)) _ = _
    simp only [Except.bind]
    rw [show SFCount.minC (SFCount.fin (n + 1)) SFCount.unb = SFCount.fin (n + 1) from rfl]
    rw [if_neg hne0]
    simp only [fromFloat]
    rw [hder]
    rfl
  · obtain ⟨z, hz⟩ := fromFloat_fin_exists (if va < 0 then -1 else 0) (n + 1) none
      (Or.inl rfl)
    refine ⟨z, ?_⟩
    simp only [floordivSF]
    rw [show pyFloorDiv (PyFloat.fin va) PyFloat.inf =
      Except.ok (PyFloat.fin (if va < 0 then -1 else 0)) from rfl]
    show Except.bind (Except.ok (PyFloat.fin (if va < 0 then -1 else 0))) _ = _
    simp only [Except.bind]
    rw [show SFCount.minC (SFCount.fin (n + 1)) SFCount.unb = SFCount.fin (n + 1) from rfl]
    rw [if_neg hne0]
    exact hz

/-- C2 (amended): when both operands carry integer lsf attributes and
`precision = max(a.lsf, b.lsf) < 0`, addition succeeds, the magnitude
is the raw sum, and the sig-fig count is the count parsed from the raw
sum formatted to `-precision` fractional digits; the stored lsf is then
re-derived from the count rather than taken from `precision`. -/
theorem c2_amended_negative_precision (a b : SigFig) (va vb : ℚ) (za zb : ℤ)
    (hva : a.value = .fin va) (hvb : b.value = .fin vb)
    (hla : a.lsf = .i za) (hlb : b.lsf = .i zb) (hp : max za zb < 0) :
    ∃ (pr : ℕ × ℤ) (z : ℤ),
      find_sigfigs_lsf (formatF (qAdd va vb) (-(max za zb)).toNat) = .ok pr ∧
      addSF a b = .ok ⟨.fin (qAdd va vb), .fin pr.1, .i z⟩ := by
  obtain ⟨pr, hpr⟩ := parse_formatF_ok (qAdd va vb) (-(max za zb)).toNat (by omega)
  obtain ⟨z, hz⟩ := fromFloat_fin_exists (qAdd va vb) pr.1 none (Or.inl rfl)
  refine ⟨pr, z, hpr, ?_⟩
  simp only [addSF, hva, hvb, hla, hlb, pyAdd, if_pos hp, formatFP]
  rw [hpr]
  show Except.bind (Except.ok pr) _ = _
  simp only [Except.bind]
  exact hz

theorem c2_amended_witness :
    (max (-2 : ℤ) (-1) < 0) ∧
    (∃ (pr : ℕ × ℤ) (z : ℤ),
      find_sigfigs_lsf (formatF (qAdd (mkRat 229 25) (mkRat 4 5))
        (-(max (-2 : ℤ) (-1))).toNat) = .ok pr ∧
      addSF ⟨.fin (mkRat 229 25), .fin 3, .i (-2)⟩ ⟨.fin (mkRat 4 5), .fin 1, .i (-1)⟩ =
        .ok ⟨.fin (qAdd (mkRat 229 25) (mkRat 4 5)), .fin pr.1, .i z⟩) :=
  ⟨by decide,
    c2_amended_negative_precision ⟨.fin (mkRat 229 25), .fin 3, .i (-2)⟩
      ⟨.fin (mkRat 4 5), .fin 1, .i (-1)⟩ (mkRat 229 25) (mkRat 4 5) (-2) (-1)
      rfl rfl rfl rfl (by decide)⟩

/-- C6 (code_bug evidence): on the nonnegative-precision path of
`__sub__`, when the rounded result fails the strict-integer coercion
(here: an infinite difference, which in CPython arises from overflow of
finite operands), the claimed string-parsing fallback is reached — but
it calls the undefined name `find_sigfigs`, so `NameError` surfaces to
the caller instead of the claimed error-free degradation. -/
theorem c6_sub_fallback_nameerror :
    subSF ⟨.inf, .fin 2, .i 307⟩ ⟨.fin (-1), .fin 2, .i 307⟩ = .error .nameError := by
  decide

/-- C8 (amended): the scientific-form rule holds for mantissas that
contain a decimal point (a mantissa without one raises `IndexError`
instead): the count is the digit count of the mantissa (sign and dot
discounted) and the lsf subtracts the fractional length from the parsed
exponent — also when the fractional part is empty, in which case the
lsf is the exponent itself. -/
theorem c8_scientific_form_amended (sgn : PyStr) (d : Char) (body ex : PyStr) (k : ℤ)
    (hsgn : sgn = [] ∨ sgn = ['-']) (hd : isDigitCh d = true)
    (hbody : ∀ c ∈ body, isDigitCh c = true) (hex : pyIntLit ex = .ok k)
    (hexfix : ∀ c ∈ ex, charLower c = c) (hexe : 'e' ∉ ex) :
    find_sigfigs_lsf (sgn ++ d :: '.' :: (body ++ 'e' :: ex)) =
      .ok (1 + body.length, -(body.length : ℤ) + k) :=
  parse_sci_shape 999 hsgn hd hbody hex hexfix hexe

theorem c8_amended_witness :
    find_sigfigs_lsf (pystr "-2.45e+12") = .ok (3, 10) := by
  have h := c8_scientific_form_amended ['-'] '2' ['4', '5'] ['+', '1', '2'] 12
    (Or.inr rfl) (by decide) (by decide) (by decide) (by decide) (by decide)
  exact h

theorem c5_witness :
    checkAnyNonzero (formatF (qSub (mkRat 3001 10000) (mkRat 3 10)) 1) = .ok false ∧
    subSF ⟨.fin (mkRat 3001 10000), .fin 4, .i (-4)⟩
        ⟨.fin (mkRat 3 10), .fin 1, .i (-1)⟩ =
      .ok ⟨.fin (qSub (mkRat 3001 10000) (mkRat 3 10)), .fin 0,
        .i (-(fracLen (formatF (qSub (mkRat 3001 10000) (mkRat 3 10)) 1) : ℤ))⟩ :=
  ⟨by decide,
    (c5_sub_zero_cancellation ⟨.fin (mkRat 3001 10000), .fin 4, .i (-4)⟩
      ⟨.fin (mkRat 3 10), .fin 1, .i (-1)⟩ (mkRat 3001 10000) (mkRat 3 10) (-4) (-1)
      rfl rfl rfl rfl (by decide) (by decide)).1⟩

/-- C9: the equality rule.  Two zero magnitudes compare equal whatever
the counts; a NaN on either side (outside the zero case) compares
false; otherwise equality holds exactly when the rendered strings
coincide — and concretely, the Values built from `"50.00"` and
`"50.000"` have equal magnitude `50` yet compare unequal because their
renderings keep different trailing zeros. -/
theorem c9_equality_rule :
    (∀ a b : SigFig, pyEqZero a.value = true → pyEqZero b.value = true →
      eqFn a b = .ok true) ∧
    (∀ a b : SigFig, ¬(pyEqZero a.value = true ∧ pyEqZero b.value = true) →
      (pyIsNan a.value = true ∨ pyIsNan b.value = true) → eqFn a b = .ok false) ∧
    (∀ (a b : SigFig) (sa sb : PyStr),
      ¬(pyEqZero a.value = true ∧ pyEqZero b.value = true) →
      ¬(pyIsNan a.value = true ∨ pyIsNan b.value = true) →
      strFn a = .ok sa → strFn b = .ok sb →
      (eqFn a b = .ok true ↔ sa = sb)) ∧
    (fromString (pystr "50.00") none = .ok ⟨.fin 50, .fin 4, .i (-2)⟩ ∧
     fromString (pystr "50.000") none = .ok ⟨.fin 50, .fin 5, .i (-3)⟩ ∧
     eqFn ⟨.fin 50, .fin 4, .i (-2)⟩ ⟨.fin 50, .fin 5, .i (-3)⟩ = .ok false) := by
  refine ⟨?_, ?_, ?_, by decide⟩
  · intro a b ha hb
    simp only [eqFn]
    rw [if_pos (by rw [ha, hb]; rfl)]
  · intro a b hz hn
    simp only [eqFn]
    rw [if_neg (fun hcon => hz (Bool.and_eq_true _ _ ▸ hcon))]
    rw [if_pos (by rcases hn with hn | hn
                   · rw [hn]; rfl
                   · rw [hn, Bool.or_true])]
  · intro a b sa sb hz hn hsa hsb
    simp only [eqFn]
    rw [if_neg (fun hcon => hz (Bool.and_eq_true _ _ ▸ hcon))]
    rw [if_neg (fun hcon => hn (Bool.or_eq_true _ _ ▸ hcon))]
    rw [hsa, hsb]
    show Except.bind (Except.ok sa) _ = _ ↔ _
    simp only [Except.bind]
    show Except.bind (Except.ok sb) _ = _ ↔ _
    simp only [Except.bind]
    constructor
    · intro hok
      injection hok with h'
      exact of_decide_eq_true h'
    · intro hsab
      rw [hsab]
      simp

theorem c9_witness :
    eqFn ⟨.fin 0, .fin 0, .i 0⟩ ⟨.fin 0, .fin 2, .i (-1)⟩ = .ok true ∧
    eqFn ⟨.nan, .fin 2, .i 0⟩ ⟨.fin 1, .fin 1, .i 0⟩ = .ok false ∧
    (eqFn ⟨.fin 50, .fin 4, .i (-2)⟩ ⟨.fin 50, .fin 5, .i (-3)⟩ = .ok true ↔
      pystr "50.00" = pystr "50.000") :=
  ⟨c9_equality_rule.1 ⟨.fin 0, .fin 0, .i 0⟩ ⟨.fin 0, .fin 2, .i (-1)⟩
      (by decide) (by decide),
   c9_equality_rule.2.1 ⟨.nan, .fin 2, .i 0⟩ ⟨.fin 1, .fin 1, .i 0⟩
      (by decide) (by decide),
   c9_equality_rule.2.2.1 ⟨.fin 50, .fin 4, .i (-2)⟩ ⟨.fin 50, .fin 5, .i (-3)⟩
      (pystr "50.00") (pystr "50.000") (by decide) (by decide) (by decide) (by decide)⟩

/-- Value of `float()` on a normalized scientific literal
`sign ++ d.body e ex`. -/
theorem pyFloatLit_sci {sgn : PyStr} (hsgn : sgn = [] ∨ sgn = ['-'])
    {d : Char} (hd : isDigitCh d = true) {body : PyStr}
    (hbody : ∀ c ∈ body, isDigitCh c = true)
    {ex : PyStr} {k : ℤ} (hex : pyIntLit ex = .ok k)
    (hexfix : ∀ c ∈ ex, charLower c = c) (hexe : 'e' ∉ ex) :
    pyFloatLit (sgn ++ d :: '.' :: (body ++ 'e' :: ex)) =
      .ok ((if sgn = [] then (1 : ℚ) else -1) *
        (((digitsToNat [d] : ℚ) + (digitsToNat body : ℚ) / (10 : ℚ) ^ body.length) *
          (10 : ℚ) ^ k)) := by
  have hnoe : 'e' ∉ (d :: '.' :: body : PyStr) := by
    intro hm
    rcases List.mem_cons.mp hm with he | hm
    · rw [← he] at hd
      exact absurd hd (by decide)
    · rcases List.mem_cons.mp hm with he | hm
      · cases he
      · exact absurd (hbody _ hm) (by decide)
  have hbodyeval : pyFloatBody (d :: '.' :: (body ++ 'e' :: ex)) =
      .ok ((((digitsToNat [d] : ℚ) + (digitsToNat body : ℚ) / (10 : ℚ) ^ body.length) *
        (10 : ℚ) ^ k)) := by
    unfold pyFloatBody
    rw [show (d :: '.' :: (body ++ 'e' :: ex) : PyStr) =
      (d :: '.' :: body) ++ 'e' :: ex by simp]
    rw [splitOnChar_append_cons 'e' ex hnoe, splitOnChar_of_not_mem hexe]
    have hmant : mantVal (d :: '.' :: body) =
        .ok ((digitsToNat [d] : ℚ) + (digitsToNat body : ℚ) / (10 : ℚ) ^ body.length) := by
      rw [show (d :: '.' :: body : PyStr) = [d] ++ '.' :: body from rfl]
      exact mantVal_fixed
        (by intro c hc; rw [List.mem_singleton] at hc; subst hc; exact hd)
        hbody (Or.inl (by simp))
    simp only [hmant, hex]
    show Except.ok (qMul _ (qpow10 k)) = _
    rw [qMul_eq, qpow10_eq]
  have hfixmid : ∀ c ∈ (d :: '.' :: (body ++ 'e' :: ex) : PyStr), charLower c = c := by
    intro c hc
    rcases List.mem_cons.mp hc with rfl | hc
    · exact charLower_digit hd
    · rcases List.mem_cons.mp hc with rfl | hc
      · decide
      · rcases List.mem_append.mp hc with hc | hc
        · exact charLower_digit (hbody c hc)
        · rcases List.mem_cons.mp hc with rfl | hc
          · decide
          · exact hexfix c hc
  rcases hsgn with rfl | rfl
  · rw [if_pos rfl, one_mul, List.nil_append]
    unfold pyFloatLit
    rw [toLowerL_eq_self hfixmid]
    show (if d = '+' then _
      else if d = '-' then _
      else pyFloatBody (d :: '.' :: (body ++ 'e' :: ex))) = _
    rw [if_neg (ne_of_isDigit hd (by decide)), if_neg (ne_of_isDigit hd (by decide))]
    exact hbodyeval
  · rw [if_neg (by simp)]
    unfold pyFloatLit
    rw [show (['-'] ++ d :: '.' :: (body ++ 'e' :: ex) : PyStr) =
      '-' :: (d :: '.' :: (body ++ 'e' :: ex)) from rfl]
    have hfix : toLowerL ('-' :: (d :: '.' :: (body ++ 'e' :: ex))) =
        '-' :: (d :: '.' :: (body ++ 'e' :: ex)) := by
      apply toLowerL_eq_self
      intro c hc
      rcases List.mem_cons.mp hc with rfl | hc
      · decide
      · exact hfixmid c hc
    rw [hfix]
    show (if ('-' : Char) = '+' then _
      else if ('-' : Char) = '-' then do
        let v ← pyFloatBody (d :: '.' :: (body ++ 'e' :: ex))
        Except.ok (-v)
      else _) = _
    rw [if_neg (by decide), if_pos rfl, hbodyeval]
    show Except.ok (-_) = _
    congr 1
    ring

/-- Round trip for a nonzero fixed-point literal with at most nine
significant digits: the parsed pair is stored in the Value, and
reparsing the Value's rendering returns the same pair. -/
theorem roundtrip_fixed_literal (sgn ip fp : PyStr) (hsgn : sgn = [] ∨ sgn = ['-'])
    (hip : ∀ c ∈ ip, isDigitCh c = true) (hfp : ∀ c ∈ fp, isDigitCh c = true)
    (hne : ip ≠ [] ∨ fp ≠ []) (hN : 1 ≤ digitsToNat (ip ++ fp))
    (hL : (natChars (digitsToNat (ip ++ fp))).length ≤ 9) :
    ∃ (v : ℚ) (P : ℕ × ℤ) (r : PyStr),
      find_sigfigs_lsf (sgn ++ ip ++ '.' :: fp) = .ok P ∧
      fromString (sgn ++ ip ++ '.' :: fp) none = .ok ⟨.fin v, .fin P.1, .i P.2⟩ ∧
      strFn ⟨.fin v, .fin P.1, .i P.2⟩ = .ok r ∧
      find_sigfigs_lsf r = .ok P := by
  set N := digitsToNat (ip ++ fp) with hNdef
  set L := (natChars N).length with hLdef
  obtain ⟨j, sd, hsd, hval, hdig, hhead⟩ := digit_string_strip (ip ++ fp)
    (fun c hc => by
      rcases List.mem_append.mp hc with hc | hc
      exacts [hip c hc, hfp c hc])
  rcases hhead with rfl | ⟨d, t, rfl, hd0⟩
  · exfalso
    rw [show digitsToNat ([] : PyStr) = 0 from rfl, ← hNdef] at hval
    omega
  have hd : isDigitCh d = true := hdig d (List.mem_cons_self _ _)
  have ht : ∀ c ∈ t, isDigitCh c = true := fun c hc => hdig c (List.mem_cons_of_mem _ hc)
  have hNsd : digitsToNat (d :: t) = N := hval
  have hnc : natChars N = d :: t := by
    rw [← hNsd]
    exact natChars_digitsToNat hd hd0 ht
  have hLt : L = t.length + 1 := by
    rw [hLdef, hnc, List.length_cons]
  obtain ⟨hb1, hb2⟩ := digitsToNat_head_bounds hd hd0 ht
  rw [hNsd] at hb1 hb2
  have hlit := pyFloatLit_fixed hsgn hip hfp hne
  set w : ℚ := (digitsToNat ip : ℚ) + (digitsToNat fp : ℚ) / (10 : ℚ) ^ fp.length with hwdef
  have hNcast : (N : ℚ) = (digitsToNat ip : ℚ) * (10 : ℚ) ^ fp.length +
      (digitsToNat fp : ℚ) := by
    rw [hNdef, digitsToNat_append]
    push_cast
    ring
  have hpow : (0 : ℚ) < (10 : ℚ) ^ fp.length := by positivity
  have hw : w = (N : ℚ) / (10 : ℚ) ^ fp.length := by
    rw [hwdef, hNcast]
    field_simp
  have hwpos : 0 < w := by
    rw [hw]
    apply div_pos _ hpow
    exact_mod_cast hN
  set v : ℚ := (if sgn = [] then (1 : ℚ) else -1) * w with hvdef
  have hv0 : ¬v = 0 := by
    rw [hvdef]
    rcases hsgn with rfl | rfl
    · rw [if_pos rfl, one_mul]
      exact ne_of_gt hwpos
    · rw [if_neg (by simp), neg_one_mul]
      exact ne_of_lt (neg_neg_of_pos hwpos)
  have habsv : |v| = w := by
    rw [hvdef]
    rcases hsgn with rfl | rfl
    · rw [if_pos rfl, one_mul, abs_of_pos hwpos]
    · rw [if_neg (by simp), neg_one_mul, abs_neg, abs_of_pos hwpos]
  have habs : |v| = (N : ℚ) * (10 : ℚ) ^ (-(fp.length : ℤ)) := by
    rw [habsv, hw, div_eq_mul_inv, ← zpow_natCast (10 : ℚ) fp.length, ← zpow_neg]
  have hL1 : 1 ≤ L := by omega
  have hsci : sciDigits v L = (N, (L : ℤ) - 1 + -(fp.length : ℤ)) :=
    sciDigits_exact hv0 habs (by rw [hLt, Nat.add_sub_cancel]; exact hb1)
      (by rw [hLt]; exact hb2) hL1
  have hparse := parse_fixed_exact hsgn hip hfp hne hN hL
  rw [← hNdef, ← hLdef] at hparse
  refine ⟨v, (L, -(fp.length : ℤ)), formatG v L, hparse, ?_, ?_, ?_⟩
  · simp only [fromString, hlit, ← hvdef]
    rw [if_neg hv0, if_neg (by simp)]
    rw [hparse]
    show Except.bind (Except.ok _) _ = _
    simp only [Except.bind]
  · show strFn ⟨.fin v, .fin L, .i (-(fp.length : ℤ))⟩ = _
    rw [hLt]
    rfl
  · rw [parse_formatG_exact hv0 hL1 hL, hsci]
    show Except.ok (L, (L : ℤ) - 1 + -(fp.length : ℤ) - L + 1) = _
    congr 2
    omega

/-- Round trip for a normalized scientific literal (nonzero leading
digit, explicit decimal point, at most nine mantissa digits). -/
theorem roundtrip_sci_literal (sgn : PyStr) (d : Char) (body ex : PyStr) (k : ℤ)
    (hsgn : sgn = [] ∨ sgn = ['-']) (hd : isDigitCh d = true) (hd0 : ¬d = '0')
    (hbody : ∀ c ∈ body, isDigitCh c = true) (hex : pyIntLit ex = .ok k)
    (hexfix : ∀ c ∈ ex, charLower c = c) (hexe : 'e' ∉ ex)
    (h9 : body.length + 1 ≤ 9) :
    ∃ (v : ℚ) (P : ℕ × ℤ) (r : PyStr),
      find_sigfigs_lsf (sgn ++ d :: '.' :: (body ++ 'e' :: ex)) = .ok P ∧
      fromString (sgn ++ d :: '.' :: (body ++ 'e' :: ex)) none =
        .ok ⟨.fin v, .fin P.1, .i P.2⟩ ∧
      strFn ⟨.fin v, .fin P.1, .i P.2⟩ = .ok r ∧
      find_sigfigs_lsf r = .ok P := by
  have hparse : find_sigfigs_lsf (sgn ++ d :: '.' :: (body ++ 'e' :: ex)) =
      .ok (body.length + 1, -(body.length : ℤ) + k) := by
    have h := parse_sci_shape 999 hsgn hd hbody hex hexfix hexe
    rw [show 1 + body.length = body.length + 1 by omega] at h
    exact h
  have hlit := pyFloatLit_sci hsgn hd hbody hex hexfix hexe
  set M := digitsToNat (d :: body) with hMdef
  obtain ⟨hb1, hb2⟩ := digitsToNat_head_bounds hd hd0 hbody
  rw [← hMdef] at hb1 hb2
  set w : ℚ := ((digitsToNat [d] : ℚ) + (digitsToNat body : ℚ) / (10 : ℚ) ^ body.length) *
      (10 : ℚ) ^ k with hwdef
  have hMcast : (M : ℚ) = (digitsToNat [d] : ℚ) * (10 : ℚ) ^ body.length +
      (digitsToNat body : ℚ) := by
    rw [hMdef, show (d :: body : PyStr) = [d] ++ body from rfl, digitsToNat_append]
    push_cast
    ring
  have hpow : (0 : ℚ) < (10 : ℚ) ^ body.length := by positivity
  have hpk : (0 : ℚ) < (10 : ℚ) ^ k := zpow_ten_pos k
  have hw : w = (M : ℚ) * (10 : ℚ) ^ (k - body.length) := by
    rw [hwdef, hMcast]
    rw [zpow_sub₀ (by norm_num : (10 : ℚ) ≠ 0), zpow_natCast]
    field_simp
  have hMpos : (0 : ℚ) < (M : ℚ) := by
    have : (1 : ℕ) ≤ M := le_trans (Nat.one_le_pow _ _ (by norm_num)) hb1
    exact_mod_cast this
  have hwpos : 0 < w := by
    rw [hw]
    exact mul_pos hMpos (zpow_ten_pos _)
  set v : ℚ := (if sgn = [] then (1 : ℚ) else -1) * w with hvdef
  have hv0 : ¬v = 0 := by
    rw [hvdef]
    rcases hsgn with rfl | rfl
    · rw [if_pos rfl, one_mul]
      exact ne_of_gt hwpos
    · rw [if_neg (by simp), neg_one_mul]
      exact ne_of_lt (neg_neg_of_pos hwpos)
  have habsv : |v| = w := by
    rw [hvdef]
    rcases hsgn with rfl | rfl
    · rw [if_pos rfl, one_mul, abs_of_pos hwpos]
    · rw [if_neg (by simp), neg_one_mul, abs_neg, abs_of_pos hwpos]
  have habs : |v| = (M : ℚ) * (10 : ℚ) ^ (k - body.length) := by
    rw [habsv, hw]
  have hsci : sciDigits v (body.length + 1) = (M, (body.length + 1 : ℤ) - 1 +
      (k - body.length)) :=
    sciDigits_exact hv0 habs (by rw [Nat.add_sub_cancel]; exact hb1) hb2 (by omega)
  have hsci2 : (sciDigits v (body.length + 1)).2 = k := by
    rw [hsci]
    push_cast
    ring
  refine ⟨v, (body.length + 1, -(body.length : ℤ) + k), formatG v (body.length + 1),
    hparse, ?_, ?_, ?_⟩
  · simp only [fromString, hlit, ← hvdef]
    rw [if_neg hv0, if_neg (by simp)]
    rw [hparse]
    show Except.bind (Except.ok _) _ = _
    simp only [Except.bind]
  · rfl
  · rw [parse_formatG_exact hv0 (by omega) h9, hsci2]
    congr 2
    omega

/-- C1 (amended): the round-trip property holds on the literals whose
canonical rendering is faithful: nonzero fixed-point literals with at
most nine significant digits, and normalized scientific literals
(nonzero leading digit, explicit decimal point, at most nine mantissa
digits).  For these, the Value stores exactly the parser's
`(sigfigs, lsf)` pair and reparsing the rendering returns that same
pair.  (Zero literals, ten-or-more-digit literals, and non-normalized
scientific mantissas are genuine counterexamples to the original
claim.) -/
theorem c1_round_trip_amended :
    (∀ sgn ip fp : PyStr, (sgn = [] ∨ sgn = ['-']) →
      (∀ c ∈ ip, isDigitCh c = true) → (∀ c ∈ fp, isDigitCh c = true) →
      (ip ≠ [] ∨ fp ≠ []) → 1 ≤ digitsToNat (ip ++ fp) →
      (natChars (digitsToNat (ip ++ fp))).length ≤ 9 →
      ∃ (v : ℚ) (P : ℕ × ℤ) (r : PyStr),
        find_sigfigs_lsf (sgn ++ ip ++ '.' :: fp) = .ok P ∧
        fromString (sgn ++ ip ++ '.' :: fp) none = .ok ⟨.fin v, .fin P.1, .i P.2⟩ ∧
        strFn ⟨.fin v, .fin P.1, .i P.2⟩ = .ok r ∧
        find_sigfigs_lsf r = .ok P) ∧
    (∀ (sgn : PyStr) (d : Char) (body ex : PyStr) (k : ℤ),
      (sgn = [] ∨ sgn = ['-']) → isDigitCh d = true → ¬d = '0' →
      (∀ c ∈ body, isDigitCh c = true) → pyIntLit ex = .ok k →
      (∀ c ∈ ex, charLower c = c) → 'e' ∉ ex → body.length + 1 ≤ 9 →
      ∃ (v : ℚ) (P : ℕ × ℤ) (r : PyStr),
        find_sigfigs_lsf (sgn ++ d :: '.' :: (body ++ 'e' :: ex)) = .ok P ∧
        fromString (sgn ++ d :: '.' :: (body ++ 'e' :: ex)) none =
          .ok ⟨.fin v, .fin P.1, .i P.2⟩ ∧
        strFn ⟨.fin v, .fin P.1, .i P.2⟩ = .ok r ∧
        find_sigfigs_lsf r = .ok P) :=
  ⟨roundtrip_fixed_literal, roundtrip_sci_literal⟩

theorem c1_amended_witness :
    (∃ (v : ℚ) (P : ℕ × ℤ) (r : PyStr),
      find_sigfigs_lsf ([] ++ ['5', '0'] ++ '.' :: ['0', '0']) = .ok P ∧
      fromString ([] ++ ['5', '0'] ++ '.' :: ['0', '0']) none =
        .ok ⟨.fin v, .fin P.1, .i P.2⟩ ∧
      strFn ⟨.fin v, .fin P.1, .i P.2⟩ = .ok r ∧
      find_sigfigs_lsf r = .ok P) ∧
    (∃ (v : ℚ) (P : ℕ × ℤ) (r : PyStr),
      find_sigfigs_lsf ([] ++ '2' :: '.' :: (['4', '5'] ++ 'e' :: ['+', '1', '2'])) =
        .ok P ∧
      fromString ([] ++ '2' :: '.' :: (['4', '5'] ++ 'e' :: ['+', '1', '2'])) none =
        .ok ⟨.fin v, .fin P.1, .i P.2⟩ ∧
      strFn ⟨.fin v, .fin P.1, .i P.2⟩ = .ok r ∧
      find_sigfigs_lsf r = .ok P) :=
  ⟨c1_round_trip_amended.1 [] ['5', '0'] ['0', '0'] (Or.inl rfl) (by decide) (by decide)
      (Or.inl (by decide)) (by decide) (by decide),
   c1_round_trip_amended.2 [] '2' ['4', '5'] ['+', '1', '2'] 12 (Or.inl rfl) (by decide)
      (by decide) (by decide) (by decide) (by decide) (by decide) (by decide)⟩

end SigFigModel
